import Mathlib

/-!
Verification of the longest-isoform GFF extractor (`extract_longest_mRNA.py`)
against its design specification.

The script is embedded shallowly:

* a Python `dict` (insertion ordered) becomes an association list with
  update-in-place assignment (`aset`) and first-match lookup (`alookup`);
* each input line is a `String` (including its trailing newline, as produced
  by iterating over a file); line classification (`parseLine`) mirrors the
  script's control flow, including the two regular expressions
  `ID=([^;]+);.*Parent=([^;]+)` and `Parent=([^;]+)` which are implemented
  directly over `List Char` with leftmost-match / greedy semantics;
* uncaught Python exceptions (`ValueError` from `int()`, `KeyError`,
  `IndexError`) become `Option.none`;
* the observable behaviour of `Maxlen.main` is an event trace: opening the
  output file, reading a line, writing a warning to stderr, writing a buffer
  to the output file, crashing.
-/

namespace XiaoTools

/-! ## Python string primitives -/

/-- Python `str.strip()` whitespace set (ASCII part). -/
def pyIsSpace (c : Char) : Bool :=
  c = ' ' || c = '\t' || c = '\n' || c = '\r' || c = '\x0b' || c = '\x0c'

/-- Python `str.strip()`: remove leading and trailing whitespace. -/
def pyStrip (s : List Char) : List Char :=
  ((s.dropWhile pyIsSpace).reverse.dropWhile pyIsSpace).reverse

/-- Python `str.split("\t")`: split at every tab, keeping empty fields.
The result is always nonempty. -/
def splitTab : List Char → List (List Char)
  | [] => [[]]
  | c :: cs =>
    match splitTab cs with
    | [] => [[]]
    | p :: ps => if c = '\t' then [] :: p :: ps else (c :: p) :: ps

/-- Python `line.startswith("#")`. -/
def pyStartsHash : List Char → Bool
  | '#' :: _ => true
  | _ => false

/-- Value of a nonempty all-ASCII-digit string, `none` otherwise. -/
def digitsVal? (ds : List Char) : Option Nat :=
  if ds.isEmpty then none
  else if ds.all (·.isDigit) then
    some (ds.foldl (fun a c => a * 10 + (c.toNat - 48)) 0)
  else none

/-- Python `int(s)` on a string: strip whitespace, optional sign, decimal
digits; `none` models the `ValueError` raised on anything else. -/
def pyInt (s : String) : Option Int :=
  match pyStrip s.data with
  | '+' :: ds => (digitsVal? ds).map fun n => (n : Int)
  | '-' :: ds => (digitsVal? ds).map fun n => -(n : Int)
  | ds => (digitsVal? ds).map fun n => (n : Int)

/-! ## The two regular expressions of `_readgff` -/

/-- Capture of `Parent=([^;]+)` anchored at the current position: the literal
`Parent=` followed by a maximal nonempty run of non-semicolon characters. -/
def parentAt? (s : List Char) : Option (List Char) :=
  if s.take 7 = "Parent=".data then
    let v := (s.drop 7).takeWhile (· ≠ ';')
    if v = [] then none else some v
  else none

/-- First (leftmost) match of `Parent=([^;]+)`, as returned by
`re.findall(r'Parent=([^;]+)', s)[0]`. -/
def findParentFirst : List Char → Option (List Char)
  | [] => none
  | c :: cs =>
    match parentAt? (c :: cs) with
    | some v => some v
    | none => findParentFirst cs

/-- Last position at which `Parent=([^;]+)` matches, reachable by the greedy
`.*` (which cannot cross a newline). This is the capture the backtracking
engine produces for the `Parent` group of `ID=([^;]+);.*Parent=([^;]+)`. -/
def findParentLastNoNL : List Char → Option (List Char)
  | [] => none
  | c :: cs =>
    if c = '\n' then none
    else
      match findParentLastNoNL cs with
      | some v => some v
      | none => parentAt? (c :: cs)

/-- Match of `ID=([^;]+);.*Parent=([^;]+)` anchored at the current position:
`ID=`, a maximal nonempty non-semicolon run, a literal `;`, then the greedy
`.*Parent=([^;]+)`. -/
def idParentAt? (s : List Char) : Option (List Char × List Char) :=
  if s.take 3 = "ID=".data then
    let v := (s.drop 3).takeWhile (· ≠ ';')
    if v = [] then none
    else
      match (s.drop 3).dropWhile (· ≠ ';') with
      | ';' :: rest => (findParentLastNoNL rest).map fun p => (v, p)
      | _ => none
  else none

/-- First (leftmost) match of `ID=([^;]+);.*Parent=([^;]+)`, as returned by
`re.findall(...)[0]`. -/
def findIdParentFirst : List Char → Option (List Char × List Char)
  | [] => none
  | c :: cs =>
    match idParentAt? (c :: cs) with
    | some r => some r
    | none => findIdParentFirst cs

/-! ## Line classification (the dispatch of `_readgff`) -/

/-- Result of classifying one input line, mirroring the branch taken by the
loop body of `Maxlen._readgff`.  `skip` covers comments, blank lines, lines
with fewer than 9 tab-separated columns, `mRNA`/`CDS` lines whose attribute
column does not match the respective pattern, and all other feature types.
For a `CDS` line the raw start (column 4) and end (column 5) strings are
kept: the script converts them with `int()` only later, and only on some
paths. -/
inductive Parsed where
  | skip
  | mrna (mid gid : String)
  | cds (parent startS endS : String)
deriving DecidableEq, Repr

/-- Classify one raw line exactly as the loop body of `Maxlen._readgff`
does before touching any dictionary. -/
def parseLine (line : String) : Parsed :=
  if pyStartsHash line.data || pyStrip line.data = [] then .skip
  else
    let cols := splitTab (pyStrip line.data)
    if cols.length < 9 then .skip
    else if cols.getD 2 [] = "mRNA".data then
      match findIdParentFirst (cols.getD 8 []) with
      | some (m, g) => .mrna ⟨m⟩ ⟨g⟩
      | none => .skip
    else if cols.getD 2 [] = "CDS".data then
      match findParentFirst (cols.getD 8 []) with
      | some p => .cds ⟨p⟩ ⟨cols.getD 3 []⟩ ⟨cols.getD 4 []⟩
      | none => .skip
    else .skip

/-! ## Python dictionaries as insertion-ordered association lists -/

/-- First-match lookup, `d[k]` / `k in d`. -/
def alookup {α : Type} : List (String × α) → String → Option α
  | [], _ => none
  | (k', v) :: rest, k => if k' = k then some v else alookup rest k

/-- Assignment `d[k] = v`: update the existing entry in place (keeping its
insertion position, as a Python dict does) or append a new entry. -/
def aset {α : Type} : List (String × α) → String → α → List (String × α)
  | [], k, v => [(k, v)]
  | (k', v') :: rest, k, v =>
    if k' = k then (k', v) :: rest else (k', v') :: aset rest k v

/-! ## Scanner state and one step of `_readgff` -/

/-- The four dictionaries built by `Maxlen._readgff`. -/
structure GffState where
  gene_mrna_len : List (String × List (String × Int))
  mrna_info : List (String × String)
  rna_proid : List (String × String)
  mrna_gene : List (String × String)
deriving DecidableEq, Repr

def initState : GffState := ⟨[], [], [], []⟩

/-- Observable events of one run of `Maxlen.main`. -/
inductive Ev where
  | openOut
  | readLine (line : String)
  | warn (msg : String)
  | writeBuf (buf : String)
  | crash
deriving DecidableEq, Repr

def warnNoInfo (p : String) : String :=
  "Warning: " ++ p ++ " has no mRNA info!\n"

def warnNotFound (i : String) : String :=
  "Warning: " ++ i ++ " not found in mRNA info\n"

/-- One iteration of the loop body of `Maxlen._readgff` on a raw line:
the successor state together with the stderr messages it emits, or `none`
when the iteration raises an uncaught exception (`ValueError` from `int()`,
or a `KeyError`).  The order of the dictionary operations and of the two
`int()` conversions (`lines[4]` before `lines[3]`) follows the script. -/
def stepLine (st : GffState) (line : String) : Option (GffState × List Ev) :=
  match parseLine line with
  | .skip => some (st, [])
  | .mrna m g =>
    let inner := (alookup st.gene_mrna_len g).getD []
    some ({ st with
              mrna_gene := aset st.mrna_gene m g,
              gene_mrna_len := aset st.gene_mrna_len g (aset inner m 0),
              mrna_info := aset st.mrna_info m line }, [])
  | .cds p s4 s5 =>
    let st1 := { st with rna_proid := aset st.rna_proid p p }
    match alookup st1.mrna_info p with
    | some buf =>
      let st2 := { st1 with mrna_info := aset st1.mrna_info p (buf ++ line) }
      match alookup st2.mrna_gene p with
      | none => none
      | some g =>
        match pyInt s5 with
        | none => none
        | some e =>
          match pyInt s4 with
          | none => none
          | some s =>
            match alookup st2.gene_mrna_len g with
            | none => none
            | some inner =>
              match alookup inner p with
              | none => none
              | some l0 =>
                some ({ st2 with
                          gene_mrna_len :=
                            aset st2.gene_mrna_len g (aset inner p (l0 + (e - s + 1))) }, [])
    | none => some (st1, [Ev.warn (warnNoInfo p)])

/-- State transformer of one line, forgetting the stderr output. -/
def readStep (st : GffState) (line : String) : Option GffState :=
  (stepLine st line).map Prod.fst

/-- `Maxlen._readgff` from a given state over the remaining lines. -/
def readGffFrom (st : GffState) : List String → Option GffState
  | [] => some st
  | l :: ls =>
    match readStep st l with
    | none => none
    | some st' => readGffFrom st' ls

/-- `Maxlen._readgff`: the dictionaries after scanning the whole file, or
`none` when the scan raises. -/
def readGff (input : List String) : Option GffState :=
  readGffFrom initState input

/-! ## `Maxlen._getmax`: stable descending sort and selection -/

/-- Insert into a descending-sorted list after all strictly larger keys:
this is the unique stable placement, matching Python's stable `sorted`. -/
def insortDesc (x : String × Int) : List (String × Int) → List (String × Int)
  | [] => [x]
  | y :: ys => if y.2 > x.2 then y :: insortDesc x ys else x :: y :: ys

/-- Stable sort by length descending, modelling
`sorted(genelen[geneid].items(), key=lambda x: x[1], reverse=True)`. -/
def sortedDesc : List (String × Int) → List (String × Int)
  | [] => []
  | x :: xs => insortDesc x (sortedDesc xs)

/-- `newidlen[0][0]` of one gene: head of the stable descending sort, or
`none` for the `IndexError` on an empty dictionary. -/
def getmax1 (ts : List (String × Int)) : Option String :=
  ((sortedDesc ts).head?).map Prod.fst

/-- `Maxlen._getmax`: one selected transcript id per gene, in gene insertion
order; `none` when a gene has an empty transcript dictionary. -/
def getmax : List (String × List (String × Int)) → Option (List String)
  | [] => some []
  | p :: ps =>
    match getmax1 p.2, getmax ps with
    | some i, some is => some (i :: is)
    | _, _ => none

/-! ## The writer loop and the full run of `Maxlen.main` -/

/-- Events of the writer loop of `Maxlen.main` over the selected ids. -/
def writeEvents (mi : List (String × String)) : List String → List Ev
  | [] => []
  | i :: ids =>
    (match alookup mi i with
     | some buf => Ev.writeBuf buf
     | none => Ev.warn (warnNotFound i)) :: writeEvents mi ids

/-- Events after the output file has been opened: read each line (stopping
with `crash` on an uncaught exception), then select and write. -/
def goTrace (st : GffState) : List String → List Ev
  | [] =>
    match getmax st.gene_mrna_len with
    | none => [Ev.crash]
    | some ids => writeEvents st.mrna_info ids
  | l :: ls =>
    Ev.readLine l ::
      (match stepLine st l with
       | none => [Ev.crash]
       | some (st', evs) => evs ++ goTrace st' ls)

/-- Event trace of `Maxlen.main` on an input file given as its list of
lines: the output file is opened (created and truncated) first, then the
input is scanned, then the selected buffers are written. -/
def runTrace (input : List String) : List Ev :=
  Ev.openOut :: goTrace initState input

def evWrite? : Ev → Option String
  | .writeBuf b => some b
  | _ => none

/-- The buffers written to the output file, in order. -/
def writtenBufs (input : List String) : List String :=
  (runTrace input).filterMap evWrite?

/-- The output-file content of a completed run, computed from the final
scanner state: the selected ids' buffers (skipping absent ones). -/
def finalWrites (st : GffState) : List String :=
  match getmax st.gene_mrna_len with
  | none => []
  | some ids => ids.filterMap (alookup st.mrna_info)

/-! ## Specification-side reference definitions

These definitions restate, directly over the input, what the spec claims
about the program; theorems below compare the embedded program against
them. -/

/-- First entry attaining the maximal length, computed directly: the
reference against which the stable-sort selection of `_getmax` is checked. -/
def firstMax : List (String × Int) → Option (String × Int)
  | [] => none
  | x :: xs =>
    match firstMax xs with
    | none => some x
    | some h => some (if h.2 > x.2 then h else x)

/-- Invariant maintained by `_readgff`: every gene entry holds at least one
transcript, and every transcript listed under a gene has an entry in
`mrna_info`. -/
structure ScanInv (st : GffState) : Prop where
  nonempty : ∀ p ∈ st.gene_mrna_len, p.2 ≠ []
  in_info : ∀ p ∈ st.gene_mrna_len, ∀ q ∈ p.2, (alookup st.mrna_info q.1).isSome

/-- Append a gene id if it has not been seen yet (first-occurrence order). -/
def insertNew (acc : List String) (g : String) : List String :=
  if g ∈ acc then acc else acc ++ [g]

/-- The gene id registered by a line, when the line is a matching `mRNA`
record. -/
def lineGene? (l : String) : Option String :=
  match parseLine l with
  | .mrna _ g => some g
  | _ => none

/-- Distinct gene ids of the matching `mRNA` records of the input, in
first-occurrence order, accumulated onto `acc`. -/
def genesSeen (acc : List String) : List String → List String
  | [] => acc
  | l :: ls =>
    genesSeen (match lineGene? l with
               | some g => insertNew acc g
               | none => acc) ls

/-- Distinct gene ids registered from well-formed `mRNA` records of the
input, in first-occurrence order. -/
def registeredGenes (input : List String) : List String :=
  genesSeen [] input

/-! ### A structured description of a well-formed input file -/

/-- One input line together with the structured content its classification
is required (by `Rec.ok` below) to produce: a matching `mRNA` record, a
matching `CDS` record whose coordinate columns parse as the given integers,
or any line the scanner skips. -/
inductive Rec where
  | mrna (raw mid gid : String)
  | cds (raw parent c4 c5 : String) (s e : Int)
  | other (raw : String)
deriving DecidableEq, Repr

def Rec.raw : Rec → String
  | .mrna r _ _ => r
  | .cds r _ _ _ _ _ => r
  | .other r => r

/-- The raw line indeed classifies as described. -/
def Rec.ok : Rec → Prop
  | .mrna r m g => parseLine r = .mrna m g
  | .cds r p c4 c5 s e => parseLine r = .cds p c4 c5 ∧ pyInt c4 = some s ∧ pyInt c5 = some e
  | .other r => parseLine r = .skip

instance (r : Rec) : Decidable r.ok := by
  cases r <;> simp only [Rec.ok] <;> infer_instance

/-- The `(mid, gid, raw)` triples of the `mRNA` records, in file order. -/
def mrnaRecs (ds : List Rec) : List (String × String × String) :=
  ds.filterMap fun r =>
    match r with
    | .mrna raw m g => some (m, g, raw)
    | _ => none

/-- Transcript ids declared by `mRNA` records, in file order. -/
def mids (ds : List Rec) : List String :=
  (mrnaRecs ds).map Prod.fst

/-- Owning gene of a transcript: the `Parent` of the first `mRNA` record
carrying its id. -/
def gidOf (ds : List Rec) (t : String) : String :=
  ((mrnaRecs ds).find? fun q => q.1 = t).elim "" fun q => q.2.1

/-- Raw text of the first `mRNA` record carrying a transcript id. -/
def mrnaRaw (ds : List Rec) (t : String) : String :=
  ((mrnaRecs ds).find? fun q => q.1 = t).elim "" fun q => q.2.2

/-- Distinct gene ids in first-declaration order. -/
def genesOf (ds : List Rec) : List String :=
  ds.foldl (fun acc r =>
    match r with
    | .mrna _ _ g => insertNew acc g
    | _ => acc) []

/-- Transcripts of a gene, in declaration order. -/
def transOf (ds : List Rec) (g : String) : List String :=
  ds.filterMap fun r =>
    match r with
    | .mrna _ m g' => if g' = g then some m else none
    | _ => none

/-- Summed CDS length of a transcript: the sum of `end - start + 1` over
the `CDS` records naming it as parent. -/
def lenOf (ds : List Rec) (t : String) : Int :=
  (ds.filterMap fun r =>
    match r with
    | .cds _ p _ _ s e => if p = t then some (e - s + 1) else none
    | _ => none).sum

/-- Raw texts of the `CDS` records of a transcript, in file order. -/
def cdsRaws (ds : List Rec) (t : String) : List String :=
  ds.filterMap fun r =>
    match r with
    | .cds raw p _ _ _ _ => if p = t then some raw else none
    | _ => none

/-- The feature block of a transcript: its `mRNA` line followed by its
`CDS` lines. -/
def blockOf (ds : List Rec) (t : String) : String :=
  mrnaRaw ds t ++ String.join (cdsRaws ds t)

/-- The `(parent, raw)` pairs of the `CDS` records, in file order. -/
def cdsList (ds : List Rec) : List (String × String) :=
  ds.filterMap fun r =>
    match r with
    | .cds raw p _ _ _ _ => some (p, raw)
    | _ => none

/-- The transcripts of a gene paired with their summed CDS lengths. -/
def lenPairs (ds : List Rec) (g : String) : List (String × Int) :=
  (transOf ds g).map fun t => (t, lenOf ds t)

/-- The transcript the selector is expected to choose for a gene: the
first-declared transcript attaining the maximal summed CDS length. -/
def chosenOf (ds : List Rec) (g : String) : String :=
  (firstMax (lenPairs ds g)).elim "" Prod.fst

/-- Condition at one input position: a `CDS` record's parent was declared
by an earlier `mRNA` record. -/
def orderedAt (ds : List Rec) (i : Nat) (h : i < ds.length) : Prop :=
  match ds[i] with
  | .cds _ p _ _ _ _ => p ∈ mids (ds.take i)
  | _ => True

instance (ds : List Rec) (i : Nat) (h : i < ds.length) : Decidable (orderedAt ds i h) := by
  unfold orderedAt
  cases ds[i] <;> infer_instance

/-- A well-formed input file: every line classifies as described, `mRNA`
ids are distinct, and each `CDS` record follows the `mRNA` record that
declares its parent. -/
structure WFInput (ds : List Rec) : Prop where
  ok : ∀ r ∈ ds, r.ok
  nodup : (mids ds).Nodup
  ordered : ∀ i (h : i < ds.length), orderedAt ds i h

/-- A string that is one newline-terminated line: it ends with the only
newline it contains. -/
def singleLine (s : String) : Prop :=
  s.data.count '\n' = 1 ∧ s.data.getLast? = some '\n'

instance (s : String) : Decidable (singleLine s) := by
  unfold singleLine
  infer_instance

/-- Prefix of a character list up to and including its first newline. -/
def upToNL : List Char → List Char
  | [] => []
  | c :: cs => if c = '\n' then [c] else c :: upToNL cs

/-! ### Concrete inputs used to instantiate the theorems -/

def exM1 : String := "chr1\tsrc\tmRNA\t1\t100\t.\t+\t.\tID=T1;Parent=G1\n"

def exC1 : String := "chr1\tsrc\tCDS\t1\t10\t.\t+\t.\tParent=T1\n"

def exM2 : String := "chr1\tsrc\tmRNA\t1\t100\t.\t+\t.\tID=T2;Parent=G1\n"

def exC2 : String := "chr1\tsrc\tCDS\t1\t30\t.\t+\t.\tParent=T2\n"

def exM3 : String := "chr1\tsrc\tmRNA\t1\t100\t.\t+\t.\tID=T3;Parent=G2\n"

def exC3 : String := "chr1\tsrc\tCDS\t4\t9\t.\t+\t.\tParent=T3\n"

/-- An `mRNA` line whose start column is not an integer. -/
def exBadMrna : String := "chr1\tsrc\tmRNA\tX\t100\t.\t+\t.\tID=T1;Parent=G1\n"

/-- A `CDS` line (parent `T1`) whose end column is not an integer. -/
def exBadCds : String := "chr1\tsrc\tCDS\t1\tX\t.\t+\t.\tParent=T1\n"

/-- A `CDS` line whose parent `TX` is never declared. -/
def exDanglingCds : String := "chr1\tsrc\tCDS\t1\t10\t.\t+\t.\tParent=TX\n"

/-- A second `mRNA` line reusing id `T1` under a different gene `G2`. -/
def exM1G2 : String := "chr1\tsrc\tmRNA\t1\t100\t.\t+\t.\tID=T1;Parent=G2\n"

/-- Structured description of the four-line file `exM1, exC1, exM2, exC2`:
one gene with two transcripts of summed CDS lengths 10 and 30. -/
def exRecs : List Rec :=
  [Rec.mrna exM1 "T1" "G1",
   Rec.cds exC1 "T1" "1" "10" 1 10,
   Rec.mrna exM2 "T2" "G1",
   Rec.cds exC2 "T2" "1" "30" 1 30]

/-- Scanner state after reading `exM1` alone. -/
def exStateM1 : GffState :=
  ⟨[("G1", [("T1", 0)])], [("T1", exM1)], [], [("T1", "G1")]⟩

/-- Scanner state after reading `exM1` then `exC1`. -/
def exStateM1C1 : GffState :=
  ⟨[("G1", [("T1", 10)])], [("T1", exM1 ++ exC1)], [("T1", "T1")], [("T1", "G1")]⟩

/-- Structured description of a two-gene single-isoform file. -/
def exRecsSingle : List Rec :=
  [Rec.mrna exM1 "T1" "G1",
   Rec.cds exC1 "T1" "1" "10" 1 10,
   Rec.mrna exM3 "T3" "G2",
   Rec.cds exC3 "T3" "4" "9" 4 9]

/-! ## Association-list lemmas -/

theorem alookup_aset_self {α : Type} (l : List (String × α)) (k : String) (v : α) :
    alookup (aset l k v) k = some v := by
  induction l with
  | nil => simp [aset, alookup]
  | cons p rest ih =>
    obtain ⟨k', v'⟩ := p
    by_cases h : k' = k
    · simp [aset, alookup, h]
    · simp [aset, alookup, h, ih]

theorem alookup_aset_ne {α : Type} (l : List (String × α)) {k k' : String} (v : α)
    (h : k' ≠ k) : alookup (aset l k v) k' = alookup l k' := by
  have hkk : ¬ k = k' := fun hh => h hh.symm
  induction l with
  | nil => simp [aset, alookup, hkk]
  | cons p rest ih =>
    obtain ⟨k₀, v₀⟩ := p
    by_cases hk : k₀ = k
    · subst hk
      simp [aset, alookup, hkk]
    · simp only [aset, if_neg hk, alookup]
      by_cases hk' : k₀ = k'
      · simp [hk']
      · simp [hk', ih]

theorem aset_of_not_mem {α : Type} (l : List (String × α)) {k : String} (v : α)
    (h : k ∉ l.map Prod.fst) : aset l k v = l ++ [(k, v)] := by
  induction l with
  | nil => simp [aset]
  | cons p rest ih =>
    obtain ⟨k', v'⟩ := p
    simp only [List.map_cons, List.mem_cons] at h
    push_neg at h
    have hne : ¬ k' = k := fun hh => h.1 hh.symm
    simp [aset, hne, ih h.2]

theorem keys_aset {α : Type} (l : List (String × α)) (k : String) (v : α) :
    (aset l k v).map Prod.fst =
      if k ∈ l.map Prod.fst then l.map Prod.fst else l.map Prod.fst ++ [k] := by
  induction l with
  | nil => simp [aset]
  | cons p rest ih =>
    obtain ⟨k', v'⟩ := p
    by_cases h : k' = k
    · simp [aset, h]
    · have h2 : ¬ k = k' := fun hh => h hh.symm
      simp only [aset, if_neg h, List.map_cons, ih, List.mem_cons]
      by_cases hm : k ∈ rest.map Prod.fst
      · simp [hm, h2]
      · simp [hm, h2]

theorem aset_ne_nil {α : Type} (l : List (String × α)) (k : String) (v : α) :
    aset l k v ≠ [] := by
  cases l with
  | nil => simp [aset]
  | cons p rest =>
    obtain ⟨k', v'⟩ := p
    simp only [aset]
    split <;> simp

theorem mem_aset {α : Type} {l : List (String × α)} {k : String} {v : α} {q : String × α}
    (h : q ∈ aset l k v) : q ∈ l ∨ q = (k, v) := by
  induction l with
  | nil => simp [aset] at h; simp [h]
  | cons p rest ih =>
    obtain ⟨k', v'⟩ := p
    by_cases hk : k' = k
    · subst hk
      simp only [aset, if_pos rfl] at h
      rcases List.mem_cons.1 h with h | h
      · right; exact h
      · left; exact List.mem_cons_of_mem _ h
    · simp only [aset, if_neg hk] at h
      rcases List.mem_cons.1 h with h | h
      · left; exact h ▸ List.mem_cons_self _ _
      · rcases ih h with h | h
        · left; exact List.mem_cons_of_mem _ h
        · right; exact h

theorem alookup_eq_none {α : Type} (l : List (String × α)) (k : String) :
    alookup l k = none ↔ k ∉ l.map Prod.fst := by
  induction l with
  | nil => simp [alookup]
  | cons p rest ih =>
    obtain ⟨k', v'⟩ := p
    by_cases h : k' = k
    · simp [alookup, h]
    · have h2 : ¬ k = k' := fun hh => h hh.symm
      simp [alookup, h, h2, ih]

theorem mem_of_alookup_eq_some {α : Type} {l : List (String × α)} {k : String} {v : α}
    (h : alookup l k = some v) : (k, v) ∈ l := by
  induction l with
  | nil => simp [alookup] at h
  | cons p rest ih =>
    obtain ⟨k', v'⟩ := p
    by_cases hk : k' = k
    · subst hk
      simp [alookup] at h
      simp [h]
    · simp only [alookup, if_neg hk] at h
      exact List.mem_cons_of_mem _ (ih h)

theorem alookup_isSome {α : Type} (l : List (String × α)) (k : String) :
    (alookup l k).isSome ↔ k ∈ l.map Prod.fst := by
  cases h : alookup l k with
  | none =>
    have := (alookup_eq_none l k).1 h
    simp [this]
  | some v =>
    have : (k, v) ∈ l := mem_of_alookup_eq_some h
    simp [List.mem_map_of_mem Prod.fst this]

theorem alookup_map_graph {α : Type} (L : List String) (f : String → α) (k : String) :
    alookup (L.map fun x => (x, f x)) k = if k ∈ L then some (f k) else none := by
  induction L with
  | nil => simp [alookup]
  | cons x xs ih =>
    by_cases h : x = k
    · subst h; simp [alookup]
    · have h2 : ¬ k = x := fun hh => h hh.symm
      simp [alookup, h, h2, ih]

theorem aset_map_graph {α : Type} (L : List String) (f : String → α) {k : String} (v : α)
    (hk : k ∈ L) (hnd : L.Nodup) :
    aset (L.map fun x => (x, f x)) k v =
      L.map fun x => (x, if x = k then v else f x) := by
  induction L with
  | nil => simp at hk
  | cons x xs ih =>
    rcases List.nodup_cons.1 hnd with ⟨hx, hxs⟩
    rcases List.mem_cons.1 hk with h | h
    · subst h
      simp only [List.map_cons, aset, eq_self_iff_true, if_true]
      congr 1
      apply List.map_congr_left
      intro a ha
      have : ¬ a = k := fun hh => hx (hh ▸ ha)
      simp [this]
    · have hxk : ¬ x = k := fun hh => hx (hh ▸ h)
      simp only [List.map_cons, aset, if_neg hxk, ih h hxs, List.cons.injEq, true_and]

/-! ## The selector: stable sort head and first-argmax -/

theorem head?_insortDesc (x : String × Int) (l : List (String × Int)) :
    (insortDesc x l).head? =
      some (match l.head? with
            | none => x
            | some y => if y.2 > x.2 then y else x) := by
  cases l with
  | nil => simp [insortDesc]
  | cons y ys =>
    simp only [insortDesc, List.head?_cons]
    split <;> simp

theorem sortedDesc_head? (ts : List (String × Int)) :
    (sortedDesc ts).head? = firstMax ts := by
  induction ts with
  | nil => simp [sortedDesc, firstMax]
  | cons x xs ih =>
    rw [sortedDesc, head?_insortDesc, ih]
    cases h : firstMax xs <;> simp [firstMax, h]

theorem getmax1_eq_firstMax (ts : List (String × Int)) :
    getmax1 ts = (firstMax ts).map Prod.fst := by
  rw [getmax1, sortedDesc_head?]

theorem firstMax_eq_none (ts : List (String × Int)) :
    firstMax ts = none ↔ ts = [] := by
  cases ts with
  | nil => simp [firstMax]
  | cons x xs =>
    simp only [firstMax]
    constructor
    · intro h
      cases hx : firstMax xs <;> simp [hx] at h
    · intro h; exact absurd h (List.cons_ne_nil _ _)

theorem firstMax_mem : ∀ {ts : List (String × Int)} {m : String × Int},
    firstMax ts = some m → m ∈ ts
  | [], m, h => by simp [firstMax] at h
  | x :: xs, m, h => by
    cases hx : firstMax xs with
    | none =>
      simp only [firstMax, hx, Option.some.injEq] at h
      simp [← h]
    | some y =>
      simp only [firstMax, hx, Option.some.injEq] at h
      by_cases hc : y.2 > x.2
      · rw [if_pos hc] at h
        exact List.mem_cons_of_mem _ (h ▸ firstMax_mem hx)
      · rw [if_neg hc] at h
        simp [← h]

theorem firstMax_isMax : ∀ {ts : List (String × Int)} {m : String × Int},
    firstMax ts = some m → ∀ q ∈ ts, q.2 ≤ m.2
  | [], m, h => by simp [firstMax] at h
  | x :: xs, m, h => by
    intro q hq
    cases hx : firstMax xs with
    | none =>
      have hxs : xs = [] := (firstMax_eq_none xs).1 hx
      subst hxs
      simp only [firstMax, Option.some.injEq] at h
      subst h
      rcases List.mem_cons.1 hq with hq | hq
      · rw [hq]
      · simp at hq
    | some y =>
      simp only [firstMax, hx, Option.some.injEq] at h
      rcases List.mem_cons.1 hq with hq | hq
      · rw [hq]
        by_cases hc : y.2 > x.2
        · rw [← h, if_pos hc]; omega
        · rw [← h, if_neg hc]
      · have hqy := firstMax_isMax hx q hq
        by_cases hc : y.2 > x.2
        · rw [← h, if_pos hc]; exact hqy
        · rw [← h, if_neg hc]; omega

theorem find?_congr_list {α : Type} {p q : α → Bool} :
    ∀ {l : List α}, (∀ a ∈ l, p a = q a) → l.find? p = l.find? q
  | [], _ => rfl
  | x :: xs, h => by
    have hx := h x (List.mem_cons_self _ _)
    by_cases hp : p x = true
    · rw [List.find?_cons_of_pos _ hp, List.find?_cons_of_pos _ (hx ▸ hp)]
    · rw [List.find?_cons_of_neg _ hp, List.find?_cons_of_neg _ (hx ▸ hp)]
      exact find?_congr_list fun a ha => h a (List.mem_cons_of_mem _ ha)

/-- The stable-descending-sort selection is the first entry (in insertion
order) that attains the maximal length. -/
theorem firstMax_eq_find? (ts : List (String × Int)) :
    firstMax ts = ts.find? fun p => ts.all fun q => decide (q.2 ≤ p.2) := by
  induction ts with
  | nil => simp [firstMax]
  | cons x xs ih =>
    by_cases hx : ∀ q ∈ xs, q.2 ≤ x.2
    · have hpx : ((x :: xs).all fun q => decide (q.2 ≤ x.2)) = true := by
        simp only [List.all_eq_true, decide_eq_true_eq]
        intro q hq
        rcases List.mem_cons.1 hq with h | h
        · rw [h]
        · exact hx q h
      have hfind : ((x :: xs).find? fun p => (x :: xs).all fun q => decide (q.2 ≤ p.2))
          = some x := by
        simp only [List.find?_cons, hpx]
      rw [hfind]
      cases hfx : firstMax xs with
      | none => simp [firstMax, hfx]
      | some y =>
        have hy : y.2 ≤ x.2 := hx y (firstMax_mem hfx)
        simp [firstMax, hfx, show ¬ y.2 > x.2 by omega]
    · push_neg at hx
      obtain ⟨q0, hq0, hq0gt⟩ := hx
      cases hfx : firstMax xs with
      | none =>
        exact absurd ((firstMax_eq_none xs).1 hfx ▸ hq0) (List.not_mem_nil q0)
      | some y =>
        have hyq : q0.2 ≤ y.2 := firstMax_isMax hfx q0 hq0
        have hygt : x.2 < y.2 := lt_of_lt_of_le hq0gt hyq
        have hpx : ((x :: xs).all fun q => decide (q.2 ≤ x.2)) = false := by
          simp only [List.all_eq_false]
          refine ⟨q0, List.mem_cons_of_mem _ hq0, ?_⟩
          simp only [decide_eq_true_eq]
          omega
        have hfind : ((x :: xs).find? fun p => (x :: xs).all fun q => decide (q.2 ≤ p.2))
            = xs.find? fun p => (x :: xs).all fun q => decide (q.2 ≤ p.2) := by
          simp only [List.find?_cons, hpx]
        rw [hfind]
        have hcongr : (xs.find? fun p => xs.all fun q => decide (q.2 ≤ p.2))
            = xs.find? fun p => (x :: xs).all fun q => decide (q.2 ≤ p.2) := by
          apply find?_congr_list
          intro a ha
          by_cases hall : ∀ q ∈ xs, q.2 ≤ a.2
          · have hay : y.2 ≤ a.2 := hall y (firstMax_mem hfx)
            have h1 : (xs.all fun q => decide (q.2 ≤ a.2)) = true := by
              simp only [List.all_eq_true, decide_eq_true_eq]
              exact hall
            have h2 : ((x :: xs).all fun q => decide (q.2 ≤ a.2)) = true := by
              simp only [List.all_eq_true, decide_eq_true_eq]
              intro q hq
              rcases List.mem_cons.1 hq with h | h
              · rw [h]; omega
              · exact hall q h
            rw [h1, h2]
          · push_neg at hall
            obtain ⟨q1, hq1, hq1gt⟩ := hall
            have h1 : (xs.all fun q => decide (q.2 ≤ a.2)) = false := by
              simp only [List.all_eq_false]
              refine ⟨q1, hq1, ?_⟩
              simp only [decide_eq_true_eq]
              omega
            have h2 : ((x :: xs).all fun q => decide (q.2 ≤ a.2)) = false := by
              simp only [List.all_eq_false]
              refine ⟨q1, List.mem_cons_of_mem _ hq1, ?_⟩
              simp only [decide_eq_true_eq]
              omega
            rw [h1, h2]
        rw [← hcongr, ← ih]
        simp [firstMax, hfx, if_pos hygt]

/-! ## Trace lemmas: what one scanner step can emit -/

theorem stepLine_events {st : GffState} {l : String} {r : GffState × List Ev}
    (h : stepLine st l = some r) : r.2 = [] ∨ ∃ m, r.2 = [Ev.warn m] := by
  cases hp : parseLine l with
  | skip =>
    simp only [stepLine, hp, Option.some_inj] at h
    left; rw [← h]
  | mrna m g =>
    simp only [stepLine, hp, Option.some_inj] at h
    left; rw [← h]
  | cds pid s4 s5 =>
    simp only [stepLine, hp] at h
    cases hbuf : alookup st.mrna_info pid with
    | none =>
      simp only [hbuf, Option.some_inj] at h
      right; exact ⟨warnNoInfo pid, by rw [← h]⟩
    | some buf =>
      simp only [hbuf] at h
      cases hg : alookup st.mrna_gene pid with
      | none => simp only [hg] at h; exact Option.noConfusion h
      | some g =>
        simp only [hg] at h
        cases he : pyInt s5 with
        | none => simp only [he] at h; exact Option.noConfusion h
        | some e =>
          simp only [he] at h
          cases hs : pyInt s4 with
          | none => simp only [hs] at h; exact Option.noConfusion h
          | some s =>
            simp only [hs] at h
            cases hin : alookup st.gene_mrna_len g with
            | none => simp only [hin] at h; exact Option.noConfusion h
            | some inner =>
              simp only [hin] at h
              cases hl0 : alookup inner pid with
              | none => simp only [hl0] at h; exact Option.noConfusion h
              | some l0 =>
                simp only [hl0, Option.some_inj] at h
                left; rw [← h]

theorem stepLine_no_writes {st : GffState} {l : String} {r : GffState × List Ev}
    (h : stepLine st l = some r) : r.2.filterMap evWrite? = [] := by
  rcases stepLine_events h with h2 | ⟨m, h2⟩ <;> simp [h2, evWrite?]

theorem readGffFrom_append (st : GffState) (ls1 ls2 : List String) :
    readGffFrom st (ls1 ++ ls2) =
      match readGffFrom st ls1 with
      | none => none
      | some st' => readGffFrom st' ls2 := by
  induction ls1 generalizing st with
  | nil => simp [readGffFrom]
  | cons l ls ih =>
    simp only [List.cons_append, readGffFrom]
    cases readStep st l with
    | none => rfl
    | some st' => exact ih st'

/-! ## Writer lemmas -/

theorem crash_not_mem_writeEvents (mi : List (String × String)) :
    ∀ ids, Ev.crash ∉ writeEvents mi ids
  | [] => by simp [writeEvents]
  | i :: ids => by
    cases halk : alookup mi i <;>
      simp [writeEvents, halk, crash_not_mem_writeEvents mi ids]

theorem writeEvents_writes (mi : List (String × String)) :
    ∀ ids, (writeEvents mi ids).filterMap evWrite? = ids.filterMap (alookup mi)
  | [] => rfl
  | i :: ids => by
    cases halk : alookup mi i <;>
      simp [writeEvents, halk, evWrite?, writeEvents_writes mi ids]

theorem goTrace_writes : ∀ (ls : List String) (st st' : GffState),
    readGffFrom st ls = some st' →
    (goTrace st ls).filterMap evWrite? = finalWrites st'
  | [], st, st', h => by
    rw [readGffFrom, Option.some_inj] at h
    subst h
    cases hg : getmax st.gene_mrna_len <;>
      simp [goTrace, hg, finalWrites, writeEvents_writes, evWrite?]
  | l :: ls, st, st', h => by
    simp only [readGffFrom] at h
    cases hsl : stepLine st l with
    | none =>
      rw [show readStep st l = none by rw [readStep, hsl]; rfl] at h
      exact Option.noConfusion h
    | some r =>
      obtain ⟨st1, evs⟩ := r
      rw [show readStep st l = some st1 by rw [readStep, hsl]; rfl] at h
      simp only [goTrace, hsl, List.filterMap_cons, List.filterMap_append]
      rw [stepLine_no_writes hsl]
      simp [evWrite?, goTrace_writes ls st1 st' h]

/-- Output-file content of a completed run. -/
theorem writtenBufs_eq {ls : List String} {st' : GffState}
    (h : readGff ls = some st') : writtenBufs ls = finalWrites st' := by
  rw [writtenBufs, runTrace, List.filterMap_cons]
  rw [show evWrite? Ev.openOut = none from rfl]
  exact goTrace_writes ls initState st' h

theorem goTrace_crash_writes : ∀ (ls : List String) (st : GffState),
    Ev.crash ∈ goTrace st ls → (goTrace st ls).filterMap evWrite? = []
  | [], st, h => by
    cases hg : getmax st.gene_mrna_len with
    | none => simp [goTrace, hg, evWrite?]
    | some ids =>
      simp only [goTrace, hg] at h
      exact absurd h (crash_not_mem_writeEvents st.mrna_info ids)
  | l :: ls, st, h => by
    cases hsl : stepLine st l with
    | none => simp [goTrace, hsl, evWrite?]
    | some r =>
      obtain ⟨st1, evs⟩ := r
      simp only [goTrace, hsl, List.mem_cons] at h
      have hc : Ev.crash ∈ goTrace st1 ls := by
        rcases h with h | h
        · exact absurd h (by simp)
        · rcases List.mem_append.1 h with h | h
          · rcases stepLine_events hsl with h2 | ⟨m, h2⟩ <;>
              (replace h2 : evs = _ := h2; rw [h2] at h; simp at h)
          · exact h
      simp only [goTrace, hsl, List.filterMap_cons, List.filterMap_append]
      rw [stepLine_no_writes hsl]
      simp [evWrite?, goTrace_crash_writes ls st1 hc]

theorem alookup_aset_isSome {α : Type} (l : List (String × α)) (k : String) (v : α)
    (k' : String) (h : (alookup l k').isSome) : (alookup (aset l k v) k').isSome := by
  by_cases hk : k' = k
  · subst hk; rw [alookup_aset_self]; rfl
  · rw [alookup_aset_ne _ _ hk]; exact h

/-! ## Scanner invariant: genes are nonempty and their transcripts have
buffers -/

theorem initState_inv : ScanInv initState := by
  constructor <;> intro p hp <;> simp [initState] at hp

theorem stepLine_inv {st : GffState} {l : String} {r : GffState × List Ev}
    (h : stepLine st l = some r) (hinv : ScanInv st) : ScanInv r.1 := by
  cases hp : parseLine l with
  | skip =>
    simp only [stepLine, hp, Option.some_inj] at h
    rw [← h]; exact hinv
  | mrna m g =>
    simp only [stepLine, hp, Option.some_inj] at h
    rw [← h]
    constructor
    · intro p hp2
      rcases mem_aset hp2 with hmem | hval
      · exact hinv.nonempty p hmem
      · rw [hval]; exact aset_ne_nil _ _ _
    · intro p hp2 q hq
      rcases mem_aset hp2 with hmem | hval
      · exact alookup_aset_isSome _ _ _ _ (hinv.in_info p hmem q hq)
      · rw [hval] at hq
        rcases mem_aset hq with hqi | hqv
        · cases halk : alookup st.gene_mrna_len g with
          | none => rw [halk] at hqi; simp at hqi
          | some inn =>
            rw [halk] at hqi
            exact alookup_aset_isSome _ _ _ _
              (hinv.in_info (g, inn) (mem_of_alookup_eq_some halk) q hqi)
        · rw [hqv]
          rw [show ((m, (0 : Int))).1 = m from rfl, alookup_aset_self]
          rfl
  | cds pid s4 s5 =>
    simp only [stepLine, hp] at h
    cases hbuf : alookup st.mrna_info pid with
    | none =>
      simp only [hbuf, Option.some_inj] at h
      rw [← h]
      exact ⟨hinv.nonempty, hinv.in_info⟩
    | some buf =>
      simp only [hbuf] at h
      cases hg : alookup st.mrna_gene pid with
      | none => simp only [hg] at h; exact Option.noConfusion h
      | some g =>
        simp only [hg] at h
        cases he : pyInt s5 with
        | none => simp only [he] at h; exact Option.noConfusion h
        | some e =>
          simp only [he] at h
          cases hs : pyInt s4 with
          | none => simp only [hs] at h; exact Option.noConfusion h
          | some s =>
            simp only [hs] at h
            cases hin : alookup st.gene_mrna_len g with
            | none => simp only [hin] at h; exact Option.noConfusion h
            | some inner =>
              simp only [hin] at h
              cases hl0 : alookup inner pid with
              | none => simp only [hl0] at h; exact Option.noConfusion h
              | some l0 =>
                simp only [hl0, Option.some_inj] at h
                rw [← h]
                constructor
                · intro p hp2
                  rcases mem_aset hp2 with hmem | hval
                  · exact hinv.nonempty p hmem
                  · rw [hval]; exact aset_ne_nil _ _ _
                · intro p hp2 q hq
                  rcases mem_aset hp2 with hmem | hval
                  · exact alookup_aset_isSome _ _ _ _ (hinv.in_info p hmem q hq)
                  · rw [hval] at hq
                    rcases mem_aset hq with hqi | hqv
                    · exact alookup_aset_isSome _ _ _ _
                        (hinv.in_info (g, inner) (mem_of_alookup_eq_some hin) q hqi)
                    · rw [hqv]
                      rw [show ((pid, l0 + (e - s + 1))).1 = pid from rfl,
                        alookup_aset_self]
                      rfl

theorem readGffFrom_inv : ∀ (ls : List String) (st st' : GffState),
    readGffFrom st ls = some st' → ScanInv st → ScanInv st'
  | [], st, st', h, hinv => by
    rw [readGffFrom, Option.some_inj] at h
    rw [← h]; exact hinv
  | l :: ls, st, st', h, hinv => by
    simp only [readGffFrom] at h
    cases hsl : stepLine st l with
    | none =>
      rw [show readStep st l = none by rw [readStep, hsl]; rfl] at h
      exact Option.noConfusion h
    | some r =>
      rw [show readStep st l = some r.1 by rw [readStep, hsl]; rfl] at h
      exact readGffFrom_inv ls r.1 st' h (stepLine_inv hsl hinv)

theorem readGff_inv {ls : List String} {st' : GffState}
    (h : readGff ls = some st') : ScanInv st' :=
  readGffFrom_inv ls initState st' h initState_inv

/-! ## Selection on a state satisfying the invariant -/

theorem getmax1_isSome {ts : List (String × Int)} (h : ts ≠ []) :
    ∃ i len, getmax1 ts = some i ∧ (i, len) ∈ ts := by
  rw [getmax1_eq_firstMax]
  cases hf : firstMax ts with
  | none => exact absurd ((firstMax_eq_none _).1 hf) h
  | some m =>
    exact ⟨m.1, m.2, by simp, by
      have := firstMax_mem hf
      simpa using this⟩

theorem getmax_some_of_nonempty : ∀ {gl : List (String × List (String × Int))},
    (∀ p ∈ gl, p.2 ≠ []) → ∃ ids, getmax gl = some ids ∧ ids.length = gl.length
  | [], _ => ⟨[], rfl, rfl⟩
  | p :: ps, h => by
    obtain ⟨i, len, hi, hmem⟩ := getmax1_isSome (h p (List.mem_cons_self _ _))
    obtain ⟨ids, hids, hlen⟩ :=
      getmax_some_of_nonempty (fun q hq => h q (List.mem_cons_of_mem _ hq))
    exact ⟨i :: ids, by simp [getmax, hi, hids], by simp [hlen]⟩

theorem getmax_mem_source : ∀ {gl : List (String × List (String × Int))}
    {ids : List String}, getmax gl = some ids →
    ∀ i ∈ ids, ∃ p ∈ gl, ∃ len, (i, len) ∈ p.2
  | [], ids, h => by
    rw [getmax, Option.some_inj] at h
    intro i hi
    rw [← h] at hi
    simp at hi
  | p :: ps, ids, h => by
    simp only [getmax] at h
    cases h1 : getmax1 p.2 with
    | none => rw [h1] at h; exact Option.noConfusion h
    | some j =>
      rw [h1] at h
      cases h2 : getmax ps with
      | none => rw [h2] at h; exact Option.noConfusion h
      | some js =>
        rw [h2, Option.some_inj] at h
        intro i hi
        rw [← h] at hi
        rcases List.mem_cons.1 hi with hij | hijs
        · subst hij
          rw [getmax1_eq_firstMax] at h1
          cases hf : firstMax p.2 with
          | none => rw [hf] at h1; exact Option.noConfusion h1
          | some m =>
            rw [hf] at h1
            simp at h1
            refine ⟨p, List.mem_cons_self _ _, m.2, ?_⟩
            rw [← h1] at *
            simpa using firstMax_mem hf
        · obtain ⟨q, hq, len, hlen⟩ := getmax_mem_source h2 i hijs
          exact ⟨q, List.mem_cons_of_mem _ hq, len, hlen⟩

theorem crash_mem_of_readGff_none : ∀ (ls : List String) (st : GffState),
    readGffFrom st ls = none → Ev.crash ∈ goTrace st ls
  | [], st, h => by rw [readGffFrom] at h; exact Option.noConfusion h
  | l :: ls, st, h => by
    simp only [readGffFrom] at h
    cases hsl : stepLine st l with
    | none => simp [goTrace, hsl]
    | some r =>
      obtain ⟨st1, evs⟩ := r
      rw [show readStep st l = some st1 by rw [readStep, hsl]; rfl] at h
      simp only [goTrace, hsl, List.mem_cons]
      right
      exact List.mem_append.2 (Or.inr (crash_mem_of_readGff_none ls st1 h))

/-! ## Gene keys of the scanner state -/

theorem stepLine_geneKeys {st : GffState} {l : String} {r : GffState × List Ev}
    (h : stepLine st l = some r) :
    r.1.gene_mrna_len.map Prod.fst =
      match lineGene? l with
      | some g => insertNew (st.gene_mrna_len.map Prod.fst) g
      | none => st.gene_mrna_len.map Prod.fst := by
  cases hp : parseLine l with
  | skip =>
    simp only [stepLine, hp, Option.some_inj] at h
    simp [lineGene?, hp, ← h]
  | mrna m g =>
    simp only [stepLine, hp, Option.some_inj] at h
    simp only [lineGene?, hp]
    rw [← h]
    rw [show ({ st with
          mrna_gene := aset st.mrna_gene m g,
          gene_mrna_len := aset st.gene_mrna_len g
            (aset ((alookup st.gene_mrna_len g).getD []) m 0),
          mrna_info := aset st.mrna_info m l } : GffState).gene_mrna_len
        = aset st.gene_mrna_len g
            (aset ((alookup st.gene_mrna_len g).getD []) m 0) from rfl]
    rw [keys_aset, insertNew]
  | cds pid s4 s5 =>
    simp only [lineGene?, hp]
    simp only [stepLine, hp] at h
    cases hbuf : alookup st.mrna_info pid with
    | none =>
      simp only [hbuf, Option.some_inj] at h
      rw [← h]
    | some buf =>
      simp only [hbuf] at h
      cases hg : alookup st.mrna_gene pid with
      | none => simp only [hg] at h; exact Option.noConfusion h
      | some g =>
        simp only [hg] at h
        cases he : pyInt s5 with
        | none => simp only [he] at h; exact Option.noConfusion h
        | some e =>
          simp only [he] at h
          cases hs : pyInt s4 with
          | none => simp only [hs] at h; exact Option.noConfusion h
          | some s =>
            simp only [hs] at h
            cases hin : alookup st.gene_mrna_len g with
            | none => simp only [hin] at h; exact Option.noConfusion h
            | some inner =>
              simp only [hin] at h
              cases hl0 : alookup inner pid with
              | none => simp only [hl0] at h; exact Option.noConfusion h
              | some l0 =>
                simp only [hl0, Option.some_inj] at h
                rw [← h]
                rw [show ({ st with
                      rna_proid := aset st.rna_proid pid pid,
                      mrna_info := aset st.mrna_info pid (buf ++ l),
                      gene_mrna_len := aset st.gene_mrna_len g
                        (aset inner pid (l0 + (e - s + 1))) } : GffState).gene_mrna_len
                    = aset st.gene_mrna_len g (aset inner pid (l0 + (e - s + 1)))
                  from rfl]
                rw [keys_aset, if_pos]
                exact List.mem_map_of_mem Prod.fst (mem_of_alookup_eq_some hin)

theorem readGffFrom_geneKeys : ∀ (ls : List String) (st st' : GffState),
    readGffFrom st ls = some st' →
    st'.gene_mrna_len.map Prod.fst = genesSeen (st.gene_mrna_len.map Prod.fst) ls
  | [], st, st', h => by
    rw [readGffFrom, Option.some_inj] at h
    rw [← h, genesSeen]
  | l :: ls, st, st', h => by
    simp only [readGffFrom] at h
    cases hsl : stepLine st l with
    | none =>
      rw [show readStep st l = none by rw [readStep, hsl]; rfl] at h
      exact Option.noConfusion h
    | some r =>
      rw [show readStep st l = some r.1 by rw [readStep, hsl]; rfl] at h
      have hrec := readGffFrom_geneKeys ls r.1 st' h
      rw [hrec, stepLine_geneKeys hsl, genesSeen]

/-! ## Writer lemmas under the invariant -/

theorem filterMap_alookup_length (mi : List (String × String)) :
    ∀ (ids : List String), (∀ i ∈ ids, (alookup mi i).isSome) →
      (ids.filterMap (alookup mi)).length = ids.length
  | [], _ => rfl
  | i :: ids, h => by
    cases halk : alookup mi i with
    | none =>
      have := h i (List.mem_cons_self _ _)
      rw [halk] at this
      simp at this
    | some buf =>
      simp only [List.filterMap_cons, halk, List.length_cons]
      rw [filterMap_alookup_length mi ids fun j hj => h j (List.mem_cons_of_mem _ hj)]

theorem writeEvents_no_warn (mi : List (String × String)) :
    ∀ (ids : List String), (∀ i ∈ ids, (alookup mi i).isSome) →
      ∀ e ∈ writeEvents mi ids, ∀ m, e ≠ Ev.warn m
  | [], _, e, he => by simp [writeEvents] at he
  | i :: ids, h, e, he => by
    cases halk : alookup mi i with
    | none =>
      have := h i (List.mem_cons_self _ _)
      rw [halk] at this
      simp at this
    | some buf =>
      simp only [writeEvents, halk] at he
      rcases List.mem_cons.1 he with he | he
      · intro m; rw [he]; simp
      · exact writeEvents_no_warn mi ids (fun j hj => h j (List.mem_cons_of_mem _ hj)) e he

/-! ## Index correspondence of the selector -/

theorem getmax_getElem? : ∀ {gl : List (String × List (String × Int))}
    {ids : List String}, getmax gl = some ids →
    ∀ (k : Nat), ids[k]? = (gl[k]?).bind fun p => getmax1 p.2
  | [], ids, h, k => by
    rw [getmax, Option.some_inj] at h
    rw [← h]
    simp only [List.getElem?_nil]
    rfl
  | p :: ps, ids, h, k => by
    simp only [getmax] at h
    cases h1 : getmax1 p.2 with
    | none => rw [h1] at h; exact Option.noConfusion h
    | some j =>
      rw [h1] at h
      cases h2 : getmax ps with
      | none => rw [h2] at h; exact Option.noConfusion h
      | some js =>
        rw [h2, Option.some_inj] at h
        cases k with
        | zero => simp [← h, h1]
        | succ n =>
          rw [← h]
          simp only [List.getElem?_cons_succ]
          exact getmax_getElem? h2 n

/-! ## Lemmas about the reference view of a structured input -/

theorem mrnaRecs_append_mrna (ds : List Rec) (raw m g : String) :
    mrnaRecs (ds ++ [Rec.mrna raw m g]) = mrnaRecs ds ++ [(m, g, raw)] := by
  simp only [mrnaRecs, List.filterMap_append]
  rfl

theorem mrnaRecs_append_cds (ds : List Rec) (raw p c4 c5 : String) (s e : Int) :
    mrnaRecs (ds ++ [Rec.cds raw p c4 c5 s e]) = mrnaRecs ds := by
  simp only [mrnaRecs, List.filterMap_append]
  simp

theorem mrnaRecs_append_other (ds : List Rec) (raw : String) :
    mrnaRecs (ds ++ [Rec.other raw]) = mrnaRecs ds := by
  simp only [mrnaRecs, List.filterMap_append]
  simp

theorem mids_append_mrna (ds : List Rec) (raw m g : String) :
    mids (ds ++ [Rec.mrna raw m g]) = mids ds ++ [m] := by
  rw [mids, mrnaRecs_append_mrna, List.map_append]
  rfl

theorem mids_append_cds (ds : List Rec) (raw p c4 c5 : String) (s e : Int) :
    mids (ds ++ [Rec.cds raw p c4 c5 s e]) = mids ds := by
  rw [mids, mrnaRecs_append_cds]
  rfl

theorem mids_append_other (ds : List Rec) (raw : String) :
    mids (ds ++ [Rec.other raw]) = mids ds := by
  rw [mids, mrnaRecs_append_other]
  rfl

theorem mem_mrnaRecs {ds : List Rec} {m g raw : String} :
    (m, g, raw) ∈ mrnaRecs ds ↔ Rec.mrna raw m g ∈ ds := by
  simp only [mrnaRecs, List.mem_filterMap]
  constructor
  · rintro ⟨r, hr, hq⟩
    cases r with
    | mrna raw' m' g' =>
      simp only [Option.some_inj, Prod.mk.injEq] at hq
      obtain ⟨h1, h2, h3⟩ := hq
      rw [← h1, ← h2, ← h3]
      exact hr
    | cds raw' p c4 c5 s e => simp at hq
    | other raw' => simp at hq
  · intro hmem
    exact ⟨Rec.mrna raw m g, hmem, rfl⟩

theorem mem_mids {ds : List Rec} {t : String} :
    t ∈ mids ds ↔ ∃ raw g, Rec.mrna raw t g ∈ ds := by
  simp only [mids, List.mem_map]
  constructor
  · rintro ⟨q, hq, hqt⟩
    obtain ⟨m, g, raw⟩ := q
    rw [show (m, g, raw).1 = m from rfl] at hqt
    subst hqt
    exact ⟨raw, g, mem_mrnaRecs.1 hq⟩
  · rintro ⟨raw, g, hmem⟩
    exact ⟨(t, g, raw), mem_mrnaRecs.2 hmem, rfl⟩

theorem find?_append_some {α : Type} {p : α → Bool} {x : α} :
    ∀ {l1 : List α} (l2 : List α), l1.find? p = some x →
      (l1 ++ l2).find? p = some x
  | [], l2, h => by rw [List.find?] at h; exact Option.noConfusion h
  | a :: l1, l2, h => by
    cases hp : p a with
    | true =>
      rw [List.find?_cons_of_pos _ hp] at h
      rw [List.cons_append, List.find?_cons_of_pos _ hp]
      exact h
    | false =>
      rw [List.find?_cons_of_neg _ (by simp [hp])] at h
      rw [List.cons_append, List.find?_cons_of_neg _ (by simp [hp])]
      exact find?_append_some l2 h

theorem find?_append_none {α : Type} {p : α → Bool} :
    ∀ {l1 : List α} (l2 : List α), l1.find? p = none →
      (l1 ++ l2).find? p = l2.find? p
  | [], l2, _ => rfl
  | a :: l1, l2, h => by
    cases hp : p a with
    | true => rw [List.find?_cons_of_pos _ hp] at h; exact Option.noConfusion h
    | false =>
      rw [List.find?_cons_of_neg _ (by simp [hp])] at h
      rw [List.cons_append, List.find?_cons_of_neg _ (by simp [hp])]
      exact find?_append_none l2 h

theorem alist_find?_nodup {β : Type} :
    ∀ {L : List (String × β)}, (L.map Prod.fst).Nodup →
    ∀ {k : String} {v : β}, (k, v) ∈ L → L.find? (fun q => q.1 = k) = some (k, v)
  | [], _, k, v, hx => by simp at hx
  | y :: L, hnd, k, v, hx => by
    rw [List.map_cons, List.nodup_cons] at hnd
    rcases List.mem_cons.1 hx with h | h
    · rw [← h]
      exact List.find?_cons_of_pos _ (by simp)
    · have hk : k ∈ L.map Prod.fst := List.mem_map_of_mem Prod.fst h
      have hy : ¬ (y.1 = k) := fun hh => hnd.1 (hh ▸ hk)
      rw [List.find?_cons_of_neg _ (by simp [hy])]
      exact alist_find?_nodup hnd.2 h

theorem find_mrnaRecs_eq_none {ds : List Rec} {t : String} (h : t ∉ mids ds) :
    (mrnaRecs ds).find? (fun q => q.1 = t) = none := by
  rw [List.find?_eq_none]
  intro q hq hp
  simp only [decide_eq_true_eq] at hp
  exact h (hp ▸ List.mem_map_of_mem Prod.fst hq)

theorem gidOf_mrnaRaw_eq {ds : List Rec} {t g raw : String}
    (hnd : (mids ds).Nodup) (hmem : Rec.mrna raw t g ∈ ds) :
    gidOf ds t = g ∧ mrnaRaw ds t = raw := by
  have hfind := alist_find?_nodup (L := mrnaRecs ds) (by rw [← mids]; exact hnd)
    (mem_mrnaRecs.2 hmem)
  rw [gidOf, mrnaRaw, hfind]
  exact ⟨rfl, rfl⟩

theorem gidOf_append_of_mem {ds : List Rec} (r : Rec) {t : String} (ht : t ∈ mids ds) :
    gidOf (ds ++ [r]) t = gidOf ds t ∧ mrnaRaw (ds ++ [r]) t = mrnaRaw ds t := by
  obtain ⟨q, hq, hqt⟩ := List.mem_map.1 (show t ∈ (mrnaRecs ds).map Prod.fst from ht)
  have hfind : (mrnaRecs ds).find? (fun q => q.1 = t) ≠ none := by
    intro hno
    rw [List.find?_eq_none] at hno
    exact hno q hq (by simp [hqt])
  cases hf : (mrnaRecs ds).find? (fun q => q.1 = t) with
  | none => exact absurd hf hfind
  | some q0 =>
    have happ : (mrnaRecs (ds ++ [r])).find? (fun q => q.1 = t) = some q0 := by
      cases r with
      | mrna raw' m' g' =>
        rw [mrnaRecs_append_mrna]
        exact find?_append_some _ hf
      | cds raw' p c4 c5 s e => rw [mrnaRecs_append_cds]; exact hf
      | other raw' => rw [mrnaRecs_append_other]; exact hf
    rw [gidOf, gidOf, mrnaRaw, mrnaRaw, hf, happ]
    exact ⟨rfl, rfl⟩

theorem gidOf_append_new {ds : List Rec} {m : String} (hm : m ∉ mids ds)
    (raw g : String) :
    gidOf (ds ++ [Rec.mrna raw m g]) m = g ∧ mrnaRaw (ds ++ [Rec.mrna raw m g]) m = raw := by
  have happ : (mrnaRecs (ds ++ [Rec.mrna raw m g])).find? (fun q => q.1 = m)
      = some (m, g, raw) := by
    rw [mrnaRecs_append_mrna, find?_append_none _ (find_mrnaRecs_eq_none hm)]
    exact List.find?_cons_of_pos _ (by simp)
  rw [gidOf, mrnaRaw, happ]
  exact ⟨rfl, rfl⟩

/-! ### genesOf -/

theorem genesOf_append (ds : List Rec) (r : Rec) :
    genesOf (ds ++ [r]) =
      match r with
      | Rec.mrna _ _ g => insertNew (genesOf ds) g
      | _ => genesOf ds := by
  rw [genesOf, List.foldl_append]
  cases r <;> rfl

theorem mem_insertNew {acc : List String} {g x : String} :
    x ∈ insertNew acc g ↔ x ∈ acc ∨ x = g := by
  rw [insertNew]
  split
  · constructor
    · exact Or.inl
    · rintro (h | h)
      · exact h
      · rw [h]; assumption
  · simp [List.mem_append]

theorem insertNew_nodup {acc : List String} (h : acc.Nodup) (g : String) :
    (insertNew acc g).Nodup := by
  rw [insertNew]
  split
  · exact h
  · rw [List.nodup_append]
    refine ⟨h, List.nodup_singleton g, ?_⟩
    intro x hx hxg
    simp only [List.mem_singleton] at hxg
    subst hxg
    exact absurd hx (by assumption)

theorem mem_genesFold (g : String) :
    ∀ (ds : List Rec) (acc : List String),
      g ∈ ds.foldl (fun acc r =>
        match r with
        | Rec.mrna _ _ g => insertNew acc g
        | _ => acc) acc ↔ g ∈ acc ∨ ∃ raw m, Rec.mrna raw m g ∈ ds
  | [], acc => by simp
  | r :: ds, acc => by
    rw [List.foldl_cons, mem_genesFold g ds]
    cases r with
    | mrna raw' m' g' =>
      rw [mem_insertNew]
      constructor
      · rintro (⟨h | h⟩ | ⟨raw, m, h⟩)
        · exact Or.inl h
        · exact Or.inr ⟨raw', m', by rw [h]; exact List.mem_cons_self _ _⟩
        · exact Or.inr ⟨raw, m, List.mem_cons_of_mem _ h⟩
      · rintro (h | ⟨raw, m, h⟩)
        · exact Or.inl (Or.inl h)
        · rcases List.mem_cons.1 h with h | h
          · refine Or.inl (Or.inr ?_)
            simp only [Rec.mrna.injEq] at h
            exact h.2.2
          · exact Or.inr ⟨raw, m, h⟩
    | cds raw' p c4 c5 s e =>
      constructor
      · rintro (h | ⟨raw, m, h⟩)
        · exact Or.inl h
        · exact Or.inr ⟨raw, m, List.mem_cons_of_mem _ h⟩
      · rintro (h | ⟨raw, m, h⟩)
        · exact Or.inl h
        · rcases List.mem_cons.1 h with h | h
          · exact absurd h (by simp)
          · exact Or.inr ⟨raw, m, h⟩
    | other raw' =>
      constructor
      · rintro (h | ⟨raw, m, h⟩)
        · exact Or.inl h
        · exact Or.inr ⟨raw, m, List.mem_cons_of_mem _ h⟩
      · rintro (h | ⟨raw, m, h⟩)
        · exact Or.inl h
        · rcases List.mem_cons.1 h with h | h
          · exact absurd h (by simp)
          · exact Or.inr ⟨raw, m, h⟩

theorem mem_genesOf {ds : List Rec} {g : String} :
    g ∈ genesOf ds ↔ ∃ raw m, Rec.mrna raw m g ∈ ds := by
  rw [genesOf, mem_genesFold]
  simp

theorem genesFold_nodup :
    ∀ (ds : List Rec) (acc : List String), acc.Nodup →
      (ds.foldl (fun acc r =>
        match r with
        | Rec.mrna _ _ g => insertNew acc g
        | _ => acc) acc).Nodup
  | [], acc, h => h
  | r :: ds, acc, h => by
    rw [List.foldl_cons]
    cases r with
    | mrna raw m g => exact genesFold_nodup ds _ (insertNew_nodup h g)
    | cds raw p c4 c5 s e => exact genesFold_nodup ds _ h
    | other raw => exact genesFold_nodup ds _ h

theorem genesOf_nodup (ds : List Rec) : (genesOf ds).Nodup :=
  genesFold_nodup ds [] List.nodup_nil

/-! ### transOf, lenOf, cdsRaws -/

theorem transOf_append_mrna (ds : List Rec) (raw m g g' : String) :
    transOf (ds ++ [Rec.mrna raw m g]) g' =
      transOf ds g' ++ if g = g' then [m] else [] := by
  by_cases hg : g = g' <;> simp [transOf, List.filterMap_append, hg]

theorem transOf_append_cds (ds : List Rec) (raw p c4 c5 : String) (s e : Int)
    (g' : String) : transOf (ds ++ [Rec.cds raw p c4 c5 s e]) g' = transOf ds g' := by
  simp only [transOf, List.filterMap_append]
  simp

theorem transOf_append_other (ds : List Rec) (raw g' : String) :
    transOf (ds ++ [Rec.other raw]) g' = transOf ds g' := by
  simp only [transOf, List.filterMap_append]
  simp

theorem mem_transOf {ds : List Rec} {t g : String} :
    t ∈ transOf ds g ↔ ∃ raw, Rec.mrna raw t g ∈ ds := by
  simp only [transOf, List.mem_filterMap]
  constructor
  · rintro ⟨r, hr, hq⟩
    cases r with
    | mrna raw' m' g'' =>
      simp only at hq
      split at hq
      · simp only [Option.some_inj] at hq
        subst hq
        exact ⟨raw', by rwa [show g'' = g by assumption] at hr⟩
      · exact Option.noConfusion hq
    | cds raw' p c4 c5 s e => simp at hq
    | other raw' => simp at hq
  · rintro ⟨raw, hmem⟩
    exact ⟨Rec.mrna raw t g, hmem, by simp⟩

theorem transOf_sublist_mids : ∀ (ds : List Rec) (g : String),
    (transOf ds g).Sublist (mids ds)
  | [], g => List.Sublist.refl _
  | Rec.mrna raw m g' :: ds, g => by
    have hm : mids (Rec.mrna raw m g' :: ds) = m :: mids ds := by
      simp only [mids, mrnaRecs, List.filterMap_cons]
      rfl
    by_cases hg : g' = g
    · have ht : transOf (Rec.mrna raw m g' :: ds) g = m :: transOf ds g := by
        simp [transOf, List.filterMap_cons, hg]
      rw [ht, hm]
      exact List.Sublist.cons₂ m (transOf_sublist_mids ds g)
    · have ht : transOf (Rec.mrna raw m g' :: ds) g = transOf ds g := by
        simp [transOf, List.filterMap_cons, hg]
      rw [ht, hm]
      exact List.Sublist.cons m (transOf_sublist_mids ds g)
  | Rec.cds raw p c4 c5 s e :: ds, g => by
    have hm : mids (Rec.cds raw p c4 c5 s e :: ds) = mids ds := by
      simp only [mids, mrnaRecs, List.filterMap_cons]
    have ht : transOf (Rec.cds raw p c4 c5 s e :: ds) g = transOf ds g := by
      simp only [transOf, List.filterMap_cons]
    rw [ht, hm]
    exact transOf_sublist_mids ds g
  | Rec.other raw :: ds, g => by
    have hm : mids (Rec.other raw :: ds) = mids ds := by
      simp only [mids, mrnaRecs, List.filterMap_cons]
    have ht : transOf (Rec.other raw :: ds) g = transOf ds g := by
      simp only [transOf, List.filterMap_cons]
    rw [ht, hm]
    exact transOf_sublist_mids ds g

theorem transOf_nodup {ds : List Rec} (hnd : (mids ds).Nodup) (g : String) :
    (transOf ds g).Nodup :=
  (transOf_sublist_mids ds g).nodup hnd

theorem mem_mids_of_mem_transOf {ds : List Rec} {t g : String}
    (h : t ∈ transOf ds g) : t ∈ mids ds :=
  (transOf_sublist_mids ds g).subset h

theorem gidOf_of_mem_transOf {ds : List Rec} (hnd : (mids ds).Nodup) {t g : String}
    (ht : t ∈ transOf ds g) : gidOf ds t = g := by
  obtain ⟨raw, hmem⟩ := mem_transOf.1 ht
  exact (gidOf_mrnaRaw_eq hnd hmem).1

theorem transOf_disjoint {ds : List Rec} (hnd : (mids ds).Nodup) {t g g' : String}
    (h1 : t ∈ transOf ds g) (h2 : t ∈ transOf ds g') : g = g' := by
  rw [← gidOf_of_mem_transOf hnd h1, ← gidOf_of_mem_transOf hnd h2]

theorem mem_transOf_gidOf {ds : List Rec} (hnd : (mids ds).Nodup) {t : String}
    (ht : t ∈ mids ds) : gidOf ds t ∈ genesOf ds ∧ t ∈ transOf ds (gidOf ds t) := by
  obtain ⟨raw, g, hmem⟩ := mem_mids.1 ht
  have hgid := (gidOf_mrnaRaw_eq hnd hmem).1
  rw [hgid]
  exact ⟨mem_genesOf.2 ⟨raw, t, hmem⟩, mem_transOf.2 ⟨raw, hmem⟩⟩

theorem lenOf_append_mrna (ds : List Rec) (raw m g t : String) :
    lenOf (ds ++ [Rec.mrna raw m g]) t = lenOf ds t := by
  simp [lenOf, List.filterMap_append]

theorem lenOf_append_other (ds : List Rec) (raw t : String) :
    lenOf (ds ++ [Rec.other raw]) t = lenOf ds t := by
  simp [lenOf, List.filterMap_append]

theorem lenOf_append_cds (ds : List Rec) (raw p c4 c5 : String) (s e : Int)
    (t : String) :
    lenOf (ds ++ [Rec.cds raw p c4 c5 s e]) t =
      lenOf ds t + if p = t then e - s + 1 else 0 := by
  by_cases hp : p = t <;>
    simp [lenOf, List.filterMap_append, hp]

theorem cdsRaws_append_mrna (ds : List Rec) (raw m g t : String) :
    cdsRaws (ds ++ [Rec.mrna raw m g]) t = cdsRaws ds t := by
  simp [cdsRaws, List.filterMap_append]

theorem cdsRaws_append_other (ds : List Rec) (raw t : String) :
    cdsRaws (ds ++ [Rec.other raw]) t = cdsRaws ds t := by
  simp [cdsRaws, List.filterMap_append]

theorem cdsRaws_append_cds (ds : List Rec) (raw p c4 c5 : String) (s e : Int)
    (t : String) :
    cdsRaws (ds ++ [Rec.cds raw p c4 c5 s e]) t =
      cdsRaws ds t ++ if p = t then [raw] else [] := by
  by_cases hp : p = t <;>
    simp [cdsRaws, List.filterMap_append, hp]

/-! ### Order conditions -/

theorem mids_take_subset (ds : List Rec) (i : Nat) : mids (ds.take i) ⊆ mids ds := by
  intro t ht
  obtain ⟨raw, g, hmem⟩ := mem_mids.1 ht
  exact mem_mids.2 ⟨raw, g, List.take_subset i ds hmem⟩

theorem cds_parent_mem_mids {ds : List Rec}
    (hord : ∀ i (h : i < ds.length), orderedAt ds i h)
    {raw p c4 c5 : String} {s e : Int}
    (hmem : Rec.cds raw p c4 c5 s e ∈ ds) : p ∈ mids ds := by
  obtain ⟨i, hi, hg⟩ := List.getElem_of_mem hmem
  have := hord i hi
  rw [orderedAt, hg] at this
  exact mids_take_subset ds i this

theorem noCds_of_not_mem_mids {ds : List Rec}
    (hord : ∀ i (h : i < ds.length), orderedAt ds i h)
    {t : String} (ht : t ∉ mids ds) : cdsRaws ds t = [] ∧ lenOf ds t = 0 := by
  have hraws : cdsRaws ds t = [] := by
    rw [cdsRaws, List.filterMap_eq_nil]
    intro r hr
    cases r with
    | mrna raw m g => rfl
    | other raw => rfl
    | cds raw p c4 c5 s e =>
      simp only
      rw [if_neg]
      intro hp
      exact ht (hp ▸ cds_parent_mem_mids hord hr)
  refine ⟨hraws, ?_⟩
  have hlens : (ds.filterMap fun r =>
      match r with
      | Rec.cds _ p _ _ s e => if p = t then some (e - s + 1) else none
      | _ => none) = ([] : List Int) := by
    rw [List.filterMap_eq_nil]
    intro r hr
    cases r with
    | mrna raw m g => rfl
    | other raw => rfl
    | cds raw p c4 c5 s e =>
      simp only
      rw [if_neg]
      intro hp
      exact ht (hp ▸ cds_parent_mem_mids hord hr)
  rw [lenOf, hlens]
  rfl

theorem WFInput_of_append {ds : List Rec} {r : Rec} (h : WFInput (ds ++ [r])) :
    WFInput ds := by
  refine ⟨fun x hx => h.ok x (List.mem_append_left _ hx), ?_, ?_⟩
  · have := h.nodup
    cases r with
    | mrna raw m g =>
      rw [mids_append_mrna] at this
      exact (List.nodup_append.1 this).1
    | cds raw p c4 c5 s e => rwa [mids_append_cds] at this
    | other raw => rwa [mids_append_other] at this
  · intro i hi
    have hi2 : i < (ds ++ [r]).length := by
      rw [List.length_append]
      omega
    have := h.ordered i hi2
    rw [orderedAt] at this ⊢
    rw [List.getElem_append_left hi] at this
    rwa [List.take_append_of_le_length (Nat.le_of_lt hi)] at this

theorem WFInput_last_mrna_not_mem {ds : List Rec} {raw m g : String}
    (h : WFInput (ds ++ [Rec.mrna raw m g])) : m ∉ mids ds := by
  have := h.nodup
  rw [mids_append_mrna, List.nodup_append] at this
  intro hm
  exact this.2.2 hm (List.mem_singleton.2 rfl)

theorem WFInput_last_cds_parent {ds : List Rec} {raw p c4 c5 : String} {s e : Int}
    (h : WFInput (ds ++ [Rec.cds raw p c4 c5 s e])) : p ∈ mids ds := by
  have hlen : ds.length < (ds ++ [Rec.cds raw p c4 c5 s e]).length := by
    simp
  have := h.ordered ds.length hlen
  rw [orderedAt, List.getElem_append_right (Nat.le_refl _)] at this
  simp only [Nat.sub_self, List.getElem_cons_zero] at this
  rwa [List.take_left] at this

/-! ### String-join helpers -/

theorem string_foldl_append (a : String) :
    ∀ (l : List String) (x : String),
      (l ++ [x]).foldl (fun r s => r ++ s) a = l.foldl (fun r s => r ++ s) a ++ x
  | [], x => rfl
  | y :: l, x => by
    rw [List.cons_append, List.foldl_cons, List.foldl_cons]
    exact string_foldl_append (a ++ y) l x

theorem string_join_concat (l : List String) (x : String) :
    String.join (l ++ [x]) = String.join l ++ x :=
  string_foldl_append "" l x

theorem string_append_empty (s : String) : s ++ "" = s := by
  apply String.ext
  rw [String.data_append]
  exact List.append_nil _

theorem string_empty_append (s : String) : "" ++ s = s := by
  apply String.ext
  rw [String.data_append]
  rfl

theorem string_foldl_shift (a : String) :
    ∀ (l : List String), l.foldl (fun r s => r ++ s) a = a ++ l.foldl (fun r s => r ++ s) ""
  | [] => (string_append_empty a).symm
  | y :: l => by
    rw [List.foldl_cons, List.foldl_cons, string_foldl_shift (a ++ y),
      string_foldl_shift ("" ++ y), string_empty_append, String.append_assoc]

theorem string_join_cons (x : String) (l : List String) :
    String.join (x :: l) = x ++ String.join l := by
  rw [String.join, List.foldl_cons, string_foldl_shift, string_empty_append]
  rfl

/-! ### Composite append lemmas for blocks and length pairs -/

theorem graph_keys {α : Type} (L : List String) (f : String → α) :
    ((L.map fun x => (x, f x)).map Prod.fst) = L := by
  rw [List.map_map]
  exact List.map_id'' (fun x => rfl) L

theorem transOf_eq_nil_of_not_genesOf {ds : List Rec} {g : String}
    (h : g ∉ genesOf ds) : transOf ds g = [] := by
  cases htr : transOf ds g with
  | nil => rfl
  | cons t ts =>
    have hmem : t ∈ transOf ds g := htr ▸ List.mem_cons_self _ _
    obtain ⟨raw, hmr⟩ := mem_transOf.1 hmem
    exact absurd (mem_genesOf.2 ⟨raw, t, hmr⟩) h

theorem lenPairs_append_other (ds : List Rec) (raw g' : String) :
    lenPairs (ds ++ [Rec.other raw]) g' = lenPairs ds g' := by
  rw [lenPairs, lenPairs, transOf_append_other]
  exact List.map_congr_left fun t ht => by rw [lenOf_append_other]

theorem lenPairs_append_mrna (ds : List Rec) (raw m g g' : String) :
    lenPairs (ds ++ [Rec.mrna raw m g]) g' =
      lenPairs ds g' ++ if g = g' then [(m, lenOf ds m)] else [] := by
  rw [lenPairs, lenPairs, transOf_append_mrna, List.map_append]
  congr 1
  · exact List.map_congr_left fun t ht => by rw [lenOf_append_mrna]
  · by_cases hg : g = g'
    · rw [if_pos hg, if_pos hg, List.map_singleton, lenOf_append_mrna]
    · rw [if_neg hg, if_neg hg, List.map_nil]

theorem lenPairs_append_cds (ds : List Rec) (raw p c4 c5 : String) (s e : Int)
    (g' : String) :
    lenPairs (ds ++ [Rec.cds raw p c4 c5 s e]) g' =
      (transOf ds g').map fun t => (t, lenOf ds t + if p = t then e - s + 1 else 0) := by
  rw [lenPairs, transOf_append_cds]
  exact List.map_congr_left fun t ht => by rw [lenOf_append_cds]

theorem blockOf_append_other (ds : List Rec) (raw t : String) :
    blockOf (ds ++ [Rec.other raw]) t = blockOf ds t := by
  rw [blockOf, blockOf, mrnaRaw, mrnaRaw, mrnaRecs_append_other, cdsRaws_append_other]

theorem blockOf_append_mrna_of_mem {ds : List Rec} {t : String} (ht : t ∈ mids ds)
    (raw m g : String) :
    blockOf (ds ++ [Rec.mrna raw m g]) t = blockOf ds t := by
  rw [blockOf, blockOf, (gidOf_append_of_mem (Rec.mrna raw m g) ht).2,
    cdsRaws_append_mrna]

theorem blockOf_append_cds (ds : List Rec) (raw p c4 c5 : String) (s e : Int)
    (t : String) :
    blockOf (ds ++ [Rec.cds raw p c4 c5 s e]) t =
      if p = t then blockOf ds t ++ raw else blockOf ds t := by
  have hmr : mrnaRaw (ds ++ [Rec.cds raw p c4 c5 s e]) t = mrnaRaw ds t := by
    rw [mrnaRaw, mrnaRaw, mrnaRecs_append_cds]
  rw [blockOf, blockOf, hmr, cdsRaws_append_cds]
  by_cases hp : p = t
  · rw [if_pos hp, if_pos hp, string_join_concat, String.append_assoc]
  · rw [if_neg hp, if_neg hp, List.append_nil]

theorem blockOf_append_mrna_new {ds : List Rec} {m : String}
    (hord : ∀ i (h : i < ds.length), orderedAt ds i h)
    (hm : m ∉ mids ds) (raw g : String) :
    blockOf (ds ++ [Rec.mrna raw m g]) m = raw := by
  rw [blockOf, (gidOf_append_new hm raw g).2, cdsRaws_append_mrna,
    (noCds_of_not_mem_mids hord hm).1]
  exact string_append_empty raw

theorem readGffFrom_singleton (st : GffState) (l : String) :
    readGffFrom st [l] = readStep st l := by
  rw [readGffFrom]
  cases readStep st l <;> rfl

/-- Main correspondence: on a well-formed input, `_readgff` completes and
its three relevant dictionaries are exactly the reference views computed
directly from the structured description. -/
theorem readGff_wf (ds : List Rec) (hwf : WFInput ds) :
    ∃ st, readGff (ds.map Rec.raw) = some st ∧
      st.gene_mrna_len = (genesOf ds).map (fun g => (g, lenPairs ds g)) ∧
      st.mrna_info = (mids ds).map (fun t => (t, blockOf ds t)) ∧
      st.mrna_gene = (mids ds).map (fun t => (t, gidOf ds t)) := by
  induction ds using List.reverseRecOn with
  | nil => exact ⟨initState, rfl, rfl, rfl, rfl⟩
  | append_singleton ds r ih =>
    have hwf' : WFInput ds := WFInput_of_append hwf
    obtain ⟨st, hread, hgl, hinfo, hgene⟩ := ih hwf'
    have hrok : r.ok := hwf.ok r (List.mem_append_right _ (List.mem_singleton.2 rfl))
    have hreadapp : readGff ((ds ++ [r]).map Rec.raw) = readStep st r.raw := by
      rw [List.map_append, readGff, readGffFrom_append]
      rw [show readGffFrom initState (ds.map Rec.raw) = some st from hread]
      exact readGffFrom_singleton st r.raw
    cases r with
    | other raw =>
      have hpl : parseLine raw = Parsed.skip := hrok
      have hstep : readStep st raw = some st := by
        rw [readStep]
        simp only [stepLine, hpl]
        rfl
      refine ⟨st, by rw [hreadapp]; exact hstep, ?_, ?_, ?_⟩
      · rw [hgl]
        have hgo : genesOf (ds ++ [Rec.other raw]) = genesOf ds := genesOf_append ds _
        rw [hgo]
        exact List.map_congr_left fun g hg => by rw [lenPairs_append_other]
      · rw [hinfo, mids_append_other]
        exact List.map_congr_left fun t ht => by rw [blockOf_append_other]
      · rw [hgene, mids_append_other]
        exact List.map_congr_left fun t ht => by
          rw [(gidOf_append_of_mem (Rec.other raw) ht).1]
    | mrna raw m g =>
      have hpl : parseLine raw = Parsed.mrna m g := hrok
      have hm : m ∉ mids ds := WFInput_last_mrna_not_mem hwf
      have hmt : m ∉ transOf ds g := fun hc => hm (mem_mids_of_mem_transOf hc)
      have hstep : readStep st raw = some
          { st with
            mrna_gene := aset st.mrna_gene m g,
            gene_mrna_len := aset st.gene_mrna_len g
              (aset ((alookup st.gene_mrna_len g).getD []) m 0),
            mrna_info := aset st.mrna_info m raw } := by
        rw [readStep]
        simp only [stepLine, hpl]
        rfl
      refine ⟨_, by rw [hreadapp]; exact hstep, ?_, ?_, ?_⟩
      · show aset st.gene_mrna_len g (aset ((alookup st.gene_mrna_len g).getD []) m 0)
          = (genesOf (ds ++ [Rec.mrna raw m g])).map
              fun g' => (g', lenPairs (ds ++ [Rec.mrna raw m g]) g')
        have hgo : genesOf (ds ++ [Rec.mrna raw m g]) = insertNew (genesOf ds) g :=
          genesOf_append ds _
        rw [hgo, hgl, alookup_map_graph]
        by_cases hmem : g ∈ genesOf ds
        · rw [if_pos hmem, Option.getD_some, insertNew, if_pos hmem]
          have hinner : aset (lenPairs ds g) m 0 = lenPairs ds g ++ [(m, 0)] := by
            apply aset_of_not_mem
            rw [lenPairs, graph_keys]
            exact hmt
          rw [hinner, aset_map_graph (genesOf ds) _ _ hmem (genesOf_nodup ds)]
          apply List.map_congr_left
          intro g' hg'
          rw [lenPairs_append_mrna]
          by_cases hgg : g' = g
          · subst hgg
            rw [if_pos rfl, if_pos rfl]
            have hlm : lenOf ds m = 0 := (noCds_of_not_mem_mids hwf'.ordered hm).2
            rw [hlm]
          · rw [if_neg hgg, if_neg (fun hh => hgg hh.symm), List.append_nil]
        · rw [if_neg hmem, Option.getD_none, insertNew, if_neg hmem]
          have houter : aset ((genesOf ds).map fun g' => (g', lenPairs ds g')) g
              (aset ([] : List (String × Int)) m 0)
              = ((genesOf ds).map fun g' => (g', lenPairs ds g')) ++ [(g, [(m, 0)])] := by
            apply aset_of_not_mem
            rw [graph_keys]
            exact hmem
          rw [houter, List.map_append, List.map_singleton]
          congr 1
          · apply List.map_congr_left
            intro g' hg'
            rw [lenPairs_append_mrna]
            have hgg : ¬ (g = g') := fun hh => hmem (hh ▸ hg')
            rw [if_neg hgg, List.append_nil]
          · rw [lenPairs_append_mrna, if_pos rfl,
              show lenPairs ds g = [] by
                rw [lenPairs, transOf_eq_nil_of_not_genesOf hmem]; rfl,
              (noCds_of_not_mem_mids hwf'.ordered hm).2]
            rfl
      · show aset st.mrna_info m raw
          = (mids (ds ++ [Rec.mrna raw m g])).map
              fun t => (t, blockOf (ds ++ [Rec.mrna raw m g]) t)
        rw [mids_append_mrna, hinfo, List.map_append, List.map_singleton,
          aset_of_not_mem _ raw (by rw [graph_keys]; exact hm)]
        congr 1
        · apply List.map_congr_left
          intro t ht
          rw [blockOf_append_mrna_of_mem ht]
        · rw [blockOf_append_mrna_new hwf'.ordered hm raw g]
      · show aset st.mrna_gene m g
          = (mids (ds ++ [Rec.mrna raw m g])).map
              fun t => (t, gidOf (ds ++ [Rec.mrna raw m g]) t)
        rw [mids_append_mrna, hgene, List.map_append, List.map_singleton,
          aset_of_not_mem _ g (by rw [graph_keys]; exact hm)]
        congr 1
        · apply List.map_congr_left
          intro t ht
          rw [(gidOf_append_of_mem (Rec.mrna raw m g) ht).1]
        · rw [(gidOf_append_new hm raw g).1]
    | cds raw p c4 c5 s e =>
      obtain ⟨hpl, hc4, hc5⟩ : parseLine raw = Parsed.cds p c4 c5 ∧
          pyInt c4 = some s ∧ pyInt c5 = some e := hrok
      have hpmem : p ∈ mids ds := WFInput_last_cds_parent hwf
      obtain ⟨hg0mem, hptrans⟩ := mem_transOf_gidOf hwf'.nodup hpmem
      have hbuf : alookup st.mrna_info p = some (blockOf ds p) := by
        rw [hinfo, alookup_map_graph, if_pos hpmem]
      have hgen0 : alookup st.mrna_gene p = some (gidOf ds p) := by
        rw [hgene, alookup_map_graph, if_pos hpmem]
      have hglg0 : alookup st.gene_mrna_len (gidOf ds p) = some (lenPairs ds (gidOf ds p)) := by
        rw [hgl, alookup_map_graph, if_pos hg0mem]
      have hinn : alookup (lenPairs ds (gidOf ds p)) p = some (lenOf ds p) := by
        rw [lenPairs, alookup_map_graph, if_pos hptrans]
      have hstep : readStep st raw = some
          { st with
            rna_proid := aset st.rna_proid p p,
            mrna_info := aset st.mrna_info p (blockOf ds p ++ raw),
            gene_mrna_len := aset st.gene_mrna_len (gidOf ds p)
              (aset (lenPairs ds (gidOf ds p)) p (lenOf ds p + (e - s + 1))) } := by
        rw [readStep]
        simp only [stepLine, hpl, hbuf, hgen0, hc5, hc4, hglg0, hinn]
        rfl
      refine ⟨_, by rw [hreadapp]; exact hstep, ?_, ?_, ?_⟩
      · show aset st.gene_mrna_len (gidOf ds p)
            (aset (lenPairs ds (gidOf ds p)) p (lenOf ds p + (e - s + 1)))
          = (genesOf (ds ++ [Rec.cds raw p c4 c5 s e])).map
              fun g' => (g', lenPairs (ds ++ [Rec.cds raw p c4 c5 s e]) g')
        have hgo : genesOf (ds ++ [Rec.cds raw p c4 c5 s e]) = genesOf ds :=
          genesOf_append ds _
        rw [hgo, hgl]
        have hinner : aset (lenPairs ds (gidOf ds p)) p (lenOf ds p + (e - s + 1))
            = (transOf ds (gidOf ds p)).map
                fun t => (t, if t = p then lenOf ds p + (e - s + 1) else lenOf ds t) := by
          rw [lenPairs]
          exact aset_map_graph _ _ _ hptrans (transOf_nodup hwf'.nodup _)
        rw [hinner, aset_map_graph _ _ _ hg0mem (genesOf_nodup ds)]
        apply List.map_congr_left
        intro g' hg'
        rw [lenPairs_append_cds]
        by_cases hgg : g' = gidOf ds p
        · subst hgg
          rw [if_pos rfl]
          refine congrArg (Prod.mk _) ?_
          apply List.map_congr_left
          intro t ht
          by_cases htp : t = p
          · subst htp
            simp
          · rw [if_neg htp, if_neg (fun hh => htp hh.symm), add_zero]
        · rw [if_neg hgg, lenPairs]
          refine congrArg (Prod.mk g') ?_
          apply List.map_congr_left
          intro t ht
          have htp : ¬ (p = t) := by
            intro hh
            subst hh
            exact hgg (transOf_disjoint hwf'.nodup ht hptrans)
          rw [if_neg htp, add_zero]
      · show aset st.mrna_info p (blockOf ds p ++ raw)
          = (mids (ds ++ [Rec.cds raw p c4 c5 s e])).map
              fun t => (t, blockOf (ds ++ [Rec.cds raw p c4 c5 s e]) t)
        rw [mids_append_cds, hinfo, aset_map_graph _ _ _ hpmem hwf'.nodup]
        apply List.map_congr_left
        intro t ht
        rw [blockOf_append_cds]
        by_cases htp : t = p
        · subst htp
          simp
        · rw [if_neg htp, if_neg (fun hh => htp hh.symm)]
      · show st.mrna_gene
          = (mids (ds ++ [Rec.cds raw p c4 c5 s e])).map
              fun t => (t, gidOf (ds ++ [Rec.cds raw p c4 c5 s e]) t)
        rw [mids_append_cds, hgene]
        exact List.map_congr_left fun t ht => by
          rw [(gidOf_append_of_mem (Rec.cds raw p c4 c5 s e) ht).1]

/-! ### Writer composition on a well-formed input -/

theorem filterMap_map_all_some {α β γ : Type} (f : β → Option γ) (c : α → β)
    (b : α → γ) : ∀ (L : List α), (∀ x ∈ L, f (c x) = some (b x)) →
      (L.map c).filterMap f = L.map b
  | [], _ => rfl
  | x :: L, h => by
    simp only [List.map_cons, List.filterMap_cons, h x (List.mem_cons_self _ _)]
    rw [filterMap_map_all_some f c b L fun y hy => h y (List.mem_cons_of_mem _ hy)]

theorem getmax_graph : ∀ (L : List String) (f : String → List (String × Int)),
    (∀ g ∈ L, f g ≠ []) →
    getmax (L.map fun g => (g, f g)) =
      some (L.map fun g => (firstMax (f g)).elim "" Prod.fst)
  | [], f, _ => rfl
  | g :: L, f, h => by
    cases hf : firstMax (f g) with
    | none => exact absurd ((firstMax_eq_none _).1 hf) (h g (List.mem_cons_self _ _))
    | some m =>
      have h1 : getmax1 (f g) = some m.1 := by
        rw [getmax1_eq_firstMax, hf]
        rfl
      simp only [List.map_cons, getmax, h1,
        getmax_graph L f fun x hx => h x (List.mem_cons_of_mem _ hx), hf]
      rfl

theorem chosenOf_spec {ds : List Rec} {g : String} (hg : g ∈ genesOf ds) :
    chosenOf ds g ∈ transOf ds g ∧
      ∀ u ∈ transOf ds g, lenOf ds u ≤ lenOf ds (chosenOf ds g) := by
  obtain ⟨raw, m, hmem⟩ := mem_genesOf.1 hg
  have hmtr : m ∈ transOf ds g := mem_transOf.2 ⟨raw, hmem⟩
  cases hf : firstMax (lenPairs ds g) with
  | none =>
    have := (firstMax_eq_none _).1 hf
    rw [lenPairs] at this
    rw [show transOf ds g = [] from by
      cases htr : transOf ds g with
      | nil => rfl
      | cons a l => rw [htr] at this; exact absurd this (by simp)] at hmtr
    exact absurd hmtr (List.not_mem_nil m)
  | some q =>
    have hq : q ∈ lenPairs ds g := firstMax_mem hf
    rw [lenPairs] at hq
    obtain ⟨t0, ht0, hq0⟩ := List.mem_map.1 hq
    have hch : chosenOf ds g = q.1 := by rw [chosenOf, hf]; rfl
    have hq1 : q.1 = t0 := by rw [← hq0]
    have hq2 : q.2 = lenOf ds t0 := by rw [← hq0]
    constructor
    · rw [hch, hq1]; exact ht0
    · intro u hu
      have := firstMax_isMax hf (u, lenOf ds u)
        (by rw [lenPairs]; exact List.mem_map_of_mem _ hu)
      rw [hch, hq1, ← hq2]
      exact this

theorem writtenBufs_wf (ds : List Rec) (hwf : WFInput ds) :
    writtenBufs (ds.map Rec.raw) =
      (genesOf ds).map fun g => blockOf ds (chosenOf ds g) := by
  obtain ⟨st, hread, hgl, hinfo, hgene⟩ := readGff_wf ds hwf
  have hne : ∀ g ∈ genesOf ds, lenPairs ds g ≠ [] := by
    intro g hg
    obtain ⟨raw, m, hmem⟩ := mem_genesOf.1 hg
    have hmtr : m ∈ transOf ds g := mem_transOf.2 ⟨raw, hmem⟩
    rw [lenPairs]
    intro hnil
    rw [List.map_eq_nil] at hnil
    rw [hnil] at hmtr
    exact List.not_mem_nil m hmtr
  have hgm : getmax st.gene_mrna_len =
      some ((genesOf ds).map fun g => chosenOf ds g) := by
    rw [hgl, getmax_graph (genesOf ds) (lenPairs ds) hne]
    rfl
  rw [writtenBufs_eq hread, finalWrites]
  simp only [hgm]
  rw [hinfo]
  apply filterMap_map_all_some
  intro g hg
  rw [alookup_map_graph, if_pos]
  exact mem_mids_of_mem_transOf (chosenOf_spec hg).1

/-! ### Distinct transcripts have distinct blocks -/

theorem singleLine_decomp {s : String} (h : singleLine s) :
    ∃ u, s.data = u ++ ['\n'] ∧ '\n' ∉ u := by
  obtain ⟨hcount, hlast⟩ := h
  obtain ⟨u, hu⟩ := List.getLast?_eq_some_iff.1 hlast
  refine ⟨u, hu, ?_⟩
  rw [hu, List.count_append] at hcount
  have h1 : List.count '\n' ['\n'] = 1 := by decide
  have h0 : List.count '\n' u = 0 := by omega
  exact List.count_eq_zero.1 h0

theorem upToNL_append : ∀ {u : List Char}, '\n' ∉ u → ∀ (x : List Char),
    upToNL (u ++ '\n' :: x) = u ++ ['\n']
  | [], _, x => by simp [upToNL]
  | c :: u, hu, x => by
    have hc : ¬ (c = '\n') := fun hh => hu (hh ▸ List.mem_cons_self _ _)
    rw [List.cons_append, upToNL, if_neg hc,
      upToNL_append (fun hh => hu (List.mem_cons_of_mem _ hh)) x, List.cons_append]

theorem blockOf_inj {ds : List Rec} (hwf : WFInput ds)
    (hnl : ∀ r ∈ ds, singleLine r.raw) {t1 t2 : String}
    (h1 : t1 ∈ mids ds) (h2 : t2 ∈ mids ds) (hne : t1 ≠ t2) :
    blockOf ds t1 ≠ blockOf ds t2 := by
  obtain ⟨raw1, g1, hm1⟩ := mem_mids.1 h1
  obtain ⟨raw2, g2, hm2⟩ := mem_mids.1 h2
  have hr1 : mrnaRaw ds t1 = raw1 := (gidOf_mrnaRaw_eq hwf.nodup hm1).2
  have hr2 : mrnaRaw ds t2 = raw2 := (gidOf_mrnaRaw_eq hwf.nodup hm2).2
  have hok1 : parseLine raw1 = Parsed.mrna t1 g1 := hwf.ok _ hm1
  have hok2 : parseLine raw2 = Parsed.mrna t2 g2 := hwf.ok _ hm2
  have hrne : raw1 ≠ raw2 := by
    intro hr
    rw [hr, hok2] at hok1
    injection hok1 with ha hb
    exact hne ha.symm
  obtain ⟨u1, hu1, hnu1⟩ := singleLine_decomp (hnl _ hm1)
  obtain ⟨u2, hu2, hnu2⟩ := singleLine_decomp (hnl _ hm2)
  replace hu1 : raw1.data = u1 ++ ['\n'] := hu1
  replace hu2 : raw2.data = u2 ++ ['\n'] := hu2
  intro hb
  apply hrne
  apply String.ext
  have hbd := congrArg String.data hb
  rw [blockOf, blockOf, hr1, hr2, String.data_append, String.data_append,
    hu1, hu2, List.append_assoc, List.append_assoc, List.singleton_append,
    List.singleton_append] at hbd
  have h3 := congrArg upToNL hbd
  rw [upToNL_append hnu1, upToNL_append hnu2] at h3
  rw [hu1, hu2]
  exact h3

/-! ## Claim C1 -/

/-- C1: on a well-formed input (every line classifies as described, mRNA
ids distinct, each CDS after its parent's mRNA, newline-terminated lines)
where a gene has at least two transcripts with pairwise distinct summed
CDS lengths, the output contains the feature block of the transcript with
maximal summed CDS length and no block of any other transcript of that
gene. -/
theorem C1_longest_transcript_selected (ds : List Rec) (hwf : WFInput ds)
    (hnl : ∀ r ∈ ds, singleLine r.raw)
    (g : String) (hg : g ∈ genesOf ds)
    (hcard : 2 ≤ (transOf ds g).length)
    (hdist : (transOf ds g).Pairwise fun a b => lenOf ds a ≠ lenOf ds b)
    (t : String) (ht : t ∈ transOf ds g)
    (hmax : ∀ u ∈ transOf ds g, lenOf ds u ≤ lenOf ds t) :
    blockOf ds t ∈ writtenBufs (ds.map Rec.raw) ∧
      ∀ u ∈ transOf ds g, u ≠ t → blockOf ds u ∉ writtenBufs (ds.map Rec.raw) := by
  rw [writtenBufs_wf ds hwf]
  have hsymm : Symmetric fun a b => lenOf ds a ≠ lenOf ds b :=
    fun a b hab => Ne.symm hab
  have hchosen : chosenOf ds g = t := by
    obtain ⟨hcm, hcmax⟩ := chosenOf_spec hg
    by_contra hct
    have hd : lenOf ds (chosenOf ds g) ≠ lenOf ds t :=
      hdist.forall hsymm hcm ht hct
    exact hd (le_antisymm (hmax _ hcm) (hcmax _ ht))
  constructor
  · rw [← hchosen]
    exact List.mem_map_of_mem _ hg
  · intro u hu hut hmem
    obtain ⟨g', hg', hbe⟩ := List.mem_map.1 hmem
    have hcm' := (chosenOf_spec hg').1
    have hune : chosenOf ds g' ≠ u := by
      by_cases hgg : g' = g
      · subst hgg
        rw [hchosen]
        exact fun hh => hut hh.symm
      · intro hh
        rw [hh] at hcm'
        exact hgg (transOf_disjoint hwf.nodup hcm' hu)
    exact blockOf_inj hwf hnl (mem_mids_of_mem_transOf hcm')
      (mem_mids_of_mem_transOf hu) hune hbe

theorem C1_witness :
    blockOf exRecs "T2" ∈ writtenBufs (exRecs.map Rec.raw) ∧
      ∀ u ∈ transOf exRecs "G1", u ≠ "T2" →
        blockOf exRecs u ∉ writtenBufs (exRecs.map Rec.raw) :=
  C1_longest_transcript_selected exRecs
    ⟨by decide, by decide, by decide⟩ (by decide) "G1" (by decide) (by decide)
    (by decide) "T2" (by decide) (by decide)

/-! ## Machinery for the round-trip claim -/

theorem flatMap_congr_left {α β : Type} {f g : α → List β} :
    ∀ {l : List α}, (∀ a ∈ l, f a = g a) → l.flatMap f = l.flatMap g
  | [], _ => rfl
  | x :: l, h => by
    rw [List.flatMap_cons, List.flatMap_cons, h x (List.mem_cons_self _ _),
      flatMap_congr_left fun a ha => h a (List.mem_cons_of_mem _ ha)]

theorem flatMap_map_comp {α β γ : Type} (f : α → β) (g : β → List γ) :
    ∀ (l : List α), (l.map f).flatMap g = l.flatMap fun x => g (f x)
  | [] => rfl
  | x :: l => by
    rw [List.map_cons, List.flatMap_cons, List.flatMap_cons, flatMap_map_comp f g l]

/-- Partition of a list by a key function: a list whose keys all lie in a
duplicate-free key list is a permutation of the concatenation of its
per-key filtered sublists. -/
theorem perm_flatMap_filter {α : Type} (κ : α → String) :
    ∀ (keys : List String) (l : List α), keys.Nodup →
      (∀ a ∈ l, κ a ∈ keys) →
      l.Perm (keys.flatMap fun k => l.filter fun a => decide (κ a = k))
  | [], l, _, hall => by
    have hl : l = [] := List.eq_nil_iff_forall_not_mem.2 fun a ha => by
      have := hall a ha
      simp at this
    rw [hl]
    exact List.Perm.refl _
  | k :: keys, l, hnd, hall => by
    rw [List.flatMap_cons]
    have hsplit := (List.filter_append_perm (fun a => decide (κ a = k)) l).symm
    have hrest : ∀ a ∈ l.filter fun a => !decide (κ a = k), κ a ∈ keys := by
      intro a ha
      rw [List.mem_filter] at ha
      rcases List.mem_cons.1 (hall a ha.1) with h | h
      · exfalso
        have := ha.2
        rw [h] at this
        simp at this
      · exact h
    have hrec := perm_flatMap_filter κ keys (l.filter fun a => !decide (κ a = k))
      (List.nodup_cons.1 hnd).2 hrest
    have hfix : (keys.flatMap fun k' =>
        (l.filter fun a => !decide (κ a = k)).filter fun a => decide (κ a = k'))
        = keys.flatMap fun k' => l.filter fun a => decide (κ a = k') := by
      apply flatMap_congr_left
      intro k' hk'
      have hkk : k ≠ k' := fun hh => (List.nodup_cons.1 hnd).1 (hh ▸ hk')
      rw [List.filter_filter]
      apply List.filter_congr
      intro a ha
      by_cases hka : κ a = k'
      · have hnk : ¬ (κ a = k) := fun hh => hkk (hh.symm.trans hka)
        have hne : ¬ (k' = k) := fun hh => hkk hh.symm
        simp [hka, hnk, hne]
      · simp [hka]
    rw [← hfix]
    exact hsplit.trans (List.Perm.append_left _ hrec)

theorem flatMap_cons_perm {α : Type} (a : α → String) (b : α → List String) :
    ∀ (L : List α), (L.flatMap fun x => a x :: b x).Perm (L.map a ++ L.flatMap b)
  | [] => List.Perm.refl _
  | x :: L => by
    rw [List.flatMap_cons, List.map_cons, List.flatMap_cons, List.cons_append]
    show (a x :: (b x ++ L.flatMap fun y => a y :: b y)).Perm
      (a x :: (L.map a ++ (b x ++ L.flatMap b)))
    apply List.Perm.cons
    have h1 : (b x ++ L.flatMap fun y => a y :: b y).Perm
        (b x ++ (L.map a ++ L.flatMap b)) :=
      List.Perm.append_left _ (flatMap_cons_perm a b L)
    have h2 : (b x ++ (L.map a ++ L.flatMap b)).Perm
        (L.map a ++ (b x ++ L.flatMap b)) := by
      rw [← List.append_assoc, ← List.append_assoc]
      exact List.Perm.append_right _ List.perm_append_comm
    exact h1.trans h2

theorem cdsRaws_eq_cdsList_filter : ∀ (ds : List Rec) (t : String),
    cdsRaws ds t = ((cdsList ds).filter fun q => decide (q.1 = t)).map Prod.snd
  | [], t => rfl
  | Rec.mrna raw m g :: ds, t => by
    have h1 : cdsRaws (Rec.mrna raw m g :: ds) t = cdsRaws ds t := by
      simp [cdsRaws, List.filterMap_cons]
    have h2 : cdsList (Rec.mrna raw m g :: ds) = cdsList ds := by
      simp [cdsList, List.filterMap_cons]
    rw [h1, h2, cdsRaws_eq_cdsList_filter ds t]
  | Rec.other raw :: ds, t => by
    have h1 : cdsRaws (Rec.other raw :: ds) t = cdsRaws ds t := by
      simp [cdsRaws, List.filterMap_cons]
    have h2 : cdsList (Rec.other raw :: ds) = cdsList ds := by
      simp [cdsList, List.filterMap_cons]
    rw [h1, h2, cdsRaws_eq_cdsList_filter ds t]
  | Rec.cds raw p c4 c5 s e :: ds, t => by
    have h2 : cdsList (Rec.cds raw p c4 c5 s e :: ds) = (p, raw) :: cdsList ds := by
      simp [cdsList, List.filterMap_cons]
    rw [h2]
    by_cases hp : p = t
    · have h1 : cdsRaws (Rec.cds raw p c4 c5 s e :: ds) t = raw :: cdsRaws ds t := by
        simp [cdsRaws, List.filterMap_cons, hp]
      rw [h1, List.filter_cons_of_pos (by simp [hp]), List.map_cons,
        cdsRaws_eq_cdsList_filter ds t]
    · have h1 : cdsRaws (Rec.cds raw p c4 c5 s e :: ds) t = cdsRaws ds t := by
        simp [cdsRaws, List.filterMap_cons, hp]
      rw [h1, List.filter_cons_of_neg (by simp [hp]),
        cdsRaws_eq_cdsList_filter ds t]

theorem mem_cdsList {ds : List Rec} {p raw : String} :
    (p, raw) ∈ cdsList ds ↔ ∃ c4 c5 s e, Rec.cds raw p c4 c5 s e ∈ ds := by
  simp only [cdsList, List.mem_filterMap]
  constructor
  · rintro ⟨r, hr, hq⟩
    cases r with
    | mrna raw' m g => simp at hq
    | other raw' => simp at hq
    | cds raw' p' c4 c5 s e =>
      simp only [Option.some_inj, Prod.mk.injEq] at hq
      exact ⟨c4, c5, s, e, by rw [← hq.1, ← hq.2]; exact hr⟩
  · rintro ⟨c4, c5, s, e, hmem⟩
    exact ⟨Rec.cds raw p c4 c5 s e, hmem, rfl⟩

theorem cdsList_parent_mem {ds : List Rec}
    (hord : ∀ i (h : i < ds.length), orderedAt ds i h) :
    ∀ q ∈ cdsList ds, q.1 ∈ mids ds := by
  rintro ⟨p, raw⟩ hq
  obtain ⟨c4, c5, s, e, hmem⟩ := mem_cdsList.1 hq
  exact cds_parent_mem_mids hord hmem

theorem map_raw_perm_split : ∀ (ds : List Rec),
    (∀ r ∈ ds, (∃ raw m g, r = Rec.mrna raw m g) ∨
      ∃ raw p c4 c5 s e, r = Rec.cds raw p c4 c5 s e) →
    (ds.map Rec.raw).Perm
      ((mrnaRecs ds).map (fun q => q.2.2) ++ (cdsList ds).map Prod.snd)
  | [], _ => List.Perm.refl _
  | r :: ds, h => by
    have ih := map_raw_perm_split ds fun x hx => h x (List.mem_cons_of_mem _ hx)
    rcases h r (List.mem_cons_self _ _) with ⟨raw, m, g, hr⟩ | ⟨raw, p, c4, c5, s, e, hr⟩
    · subst hr
      have h1 : mrnaRecs (Rec.mrna raw m g :: ds) = (m, g, raw) :: mrnaRecs ds := by
        simp [mrnaRecs, List.filterMap_cons]
      have h2 : cdsList (Rec.mrna raw m g :: ds) = cdsList ds := by
        simp [cdsList, List.filterMap_cons]
      rw [h1, h2, List.map_cons, List.map_cons, List.cons_append]
      exact ih.cons raw
    · subst hr
      have h1 : mrnaRecs (Rec.cds raw p c4 c5 s e :: ds) = mrnaRecs ds := by
        simp [mrnaRecs, List.filterMap_cons]
      have h2 : cdsList (Rec.cds raw p c4 c5 s e :: ds) = (p, raw) :: cdsList ds := by
        simp [cdsList, List.filterMap_cons]
      rw [h1, h2, List.map_cons, List.map_cons]
      exact (ih.cons raw).trans List.perm_middle.symm

theorem genesOf_eq_fold_gids : ∀ (ds : List Rec) (acc : List String),
    ds.foldl (fun acc r =>
      match r with
      | Rec.mrna _ _ g => insertNew acc g
      | _ => acc) acc
      = (mrnaRecs ds).foldl (fun acc q => insertNew acc q.2.1) acc
  | [], acc => rfl
  | Rec.mrna raw m g :: ds, acc => by
    have h1 : mrnaRecs (Rec.mrna raw m g :: ds) = (m, g, raw) :: mrnaRecs ds := by
      simp [mrnaRecs, List.filterMap_cons]
    rw [List.foldl_cons, h1, List.foldl_cons]
    exact genesOf_eq_fold_gids ds _
  | Rec.cds raw p c4 c5 s e :: ds, acc => by
    have h1 : mrnaRecs (Rec.cds raw p c4 c5 s e :: ds) = mrnaRecs ds := by
      simp [mrnaRecs, List.filterMap_cons]
    rw [List.foldl_cons, h1]
    exact genesOf_eq_fold_gids ds _
  | Rec.other raw :: ds, acc => by
    have h1 : mrnaRecs (Rec.other raw :: ds) = mrnaRecs ds := by
      simp [mrnaRecs, List.filterMap_cons]
    rw [List.foldl_cons, h1]
    exact genesOf_eq_fold_gids ds _

theorem foldl_insertNew_nodup : ∀ (ys : List String) (acc : List String),
    ys.Nodup → (∀ y ∈ ys, y ∉ acc) → ys.foldl insertNew acc = acc ++ ys
  | [], acc, _, _ => by simp
  | y :: ys, acc, hnd, hdis => by
    rw [List.foldl_cons, insertNew, if_neg (hdis y (List.mem_cons_self _ _))]
    rw [foldl_insertNew_nodup ys (acc ++ [y]) (List.nodup_cons.1 hnd).2 ?_]
    · rw [List.append_assoc]
      rfl
    · intro z hz hmem
      rcases List.mem_append.1 hmem with h | h
      · exact hdis z (List.mem_cons_of_mem _ hz) h
      · rw [List.mem_singleton] at h
        exact (List.nodup_cons.1 hnd).1 (h ▸ hz)

theorem gids_nodup_of_one {ds : List Rec} (hnd : (mids ds).Nodup)
    (hone : ∀ g ∈ genesOf ds, (transOf ds g).length = 1) :
    ((mrnaRecs ds).map fun q => q.2.1).Nodup := by
  have hrecnd : (mrnaRecs ds).Nodup := List.Nodup.of_map Prod.fst hnd
  rw [List.nodup_map_iff_inj_on hrecnd]
  intro q1 hq1 q2 hq2 hgeq
  obtain ⟨m1, g1, raw1⟩ := q1
  obtain ⟨m2, g2, raw2⟩ := q2
  have hg12 : g1 = g2 := hgeq
  subst hg12
  have hr1 := mem_mrnaRecs.1 hq1
  have hr2 := mem_mrnaRecs.1 hq2
  have ht1 : m1 ∈ transOf ds g1 := mem_transOf.2 ⟨raw1, hr1⟩
  have ht2 : m2 ∈ transOf ds g1 := mem_transOf.2 ⟨raw2, hr2⟩
  have hglen := hone g1 (mem_genesOf.2 ⟨raw1, m1, hr1⟩)
  obtain ⟨a, ha⟩ := List.length_eq_one.1 hglen
  rw [ha, List.mem_singleton] at ht1 ht2
  have hm12 : m1 = m2 := ht1.trans ht2.symm
  subst hm12
  exact List.inj_on_of_nodup_map hnd hq1 hq2 rfl

theorem genesOf_eq_gids {ds : List Rec} (hnd : (mids ds).Nodup)
    (hone : ∀ g ∈ genesOf ds, (transOf ds g).length = 1) :
    genesOf ds = (mrnaRecs ds).map fun q => q.2.1 := by
  rw [genesOf, genesOf_eq_fold_gids]
  have h : (((mrnaRecs ds).map fun q => q.2.1).foldl insertNew ([] : List String))
      = (mrnaRecs ds).foldl (fun acc q => insertNew acc q.2.1) [] := by
    rw [List.foldl_map]
  rw [← h, foldl_insertNew_nodup _ [] (gids_nodup_of_one hnd hone) (by simp)]
  rfl

theorem chosenOf_singleton {ds : List Rec} {g t : String}
    (htr : transOf ds g = [t]) : chosenOf ds g = t := by
  rw [chosenOf, lenPairs, htr]
  rfl

theorem string_join_append (l1 l2 : List String) :
    String.join (l1 ++ l2) = String.join l1 ++ String.join l2 := by
  rw [String.join, String.join, String.join, List.foldl_append, string_foldl_shift]

theorem string_join_flatMap {α : Type} (f : α → List String) :
    ∀ (L : List α),
      String.join (L.flatMap f) = String.join (L.map fun x => String.join (f x))
  | [] => rfl
  | x :: L => by
    rw [List.flatMap_cons, List.map_cons, string_join_append, string_join_cons,
      string_join_flatMap f L]

/-! ## Claim C8 -/

/-- C8: for a well-formed input consisting only of matching `mRNA` and
`CDS` lines, where each gene has exactly one transcript and every `CDS`
follows its parent's `mRNA`, the output is byte-for-byte the input up to
reordering: the concatenation of the written buffers equals the
concatenation of a permutation of the input's lines. -/
theorem C8_roundtrip_single_isoform (ds : List Rec) (hwf : WFInput ds)
    (honly : ∀ r ∈ ds, (∃ raw m g, r = Rec.mrna raw m g) ∨
      ∃ raw p c4 c5 s e, r = Rec.cds raw p c4 c5 s e)
    (hone : ∀ g ∈ genesOf ds, (transOf ds g).length = 1) :
    ∃ ls', ls'.Perm (ds.map Rec.raw) ∧
      String.join (writtenBufs (ds.map Rec.raw)) = String.join ls' := by
  refine ⟨(genesOf ds).flatMap fun g =>
    mrnaRaw ds (chosenOf ds g) :: cdsRaws ds (chosenOf ds g), ?_, ?_⟩
  · -- the chosen blocks' lines are a permutation of the input lines
    have hchos : ∀ q ∈ mrnaRecs ds, chosenOf ds q.2.1 = q.1 := by
      intro q hq
      obtain ⟨m, g, raw⟩ := q
      have hr := mem_mrnaRecs.1 hq
      have ht : m ∈ transOf ds g := mem_transOf.2 ⟨raw, hr⟩
      have hglen := hone g (mem_genesOf.2 ⟨raw, m, hr⟩)
      obtain ⟨a, ha⟩ := List.length_eq_one.1 hglen
      rw [ha, List.mem_singleton] at ht
      exact chosenOf_singleton (by rw [ha, ht])
    have hstep1 : ((genesOf ds).flatMap fun g =>
        mrnaRaw ds (chosenOf ds g) :: cdsRaws ds (chosenOf ds g))
        = (mrnaRecs ds).flatMap fun q => q.2.2 :: cdsRaws ds q.1 := by
      rw [genesOf_eq_gids hwf.nodup hone, flatMap_map_comp]
      apply flatMap_congr_left
      intro q hq
      rw [hchos q hq]
      obtain ⟨m, g, raw⟩ := q
      rw [show ((m, g, raw) : String × String × String).1 = m from rfl,
        (gidOf_mrnaRaw_eq hwf.nodup (mem_mrnaRecs.1 hq)).2]
    rw [hstep1]
    have hstep2 := flatMap_cons_perm (fun q : String × String × String => q.2.2)
      (fun q => cdsRaws ds q.1) (mrnaRecs ds)
    have hstep3 : ((mrnaRecs ds).flatMap fun q => cdsRaws ds q.1).Perm
        ((cdsList ds).map Prod.snd) := by
      have hf : ((mrnaRecs ds).flatMap fun q => cdsRaws ds q.1)
          = (mrnaRecs ds).flatMap fun q =>
              ((cdsList ds).filter fun c => decide (c.1 = q.1)).map Prod.snd :=
        flatMap_congr_left fun q _ => cdsRaws_eq_cdsList_filter ds q.1
      rw [hf]
      have hmids : (mrnaRecs ds).flatMap (fun q =>
          ((cdsList ds).filter fun c => decide (c.1 = q.1)).map Prod.snd)
          = (mids ds).flatMap fun k =>
              ((cdsList ds).filter fun c => decide (c.1 = k)).map Prod.snd := by
        rw [mids, flatMap_map_comp]
      rw [hmids]
      have hpart := perm_flatMap_filter Prod.fst (mids ds) (cdsList ds)
        hwf.nodup (cdsList_parent_mem hwf.ordered)
      have hmapped := hpart.map Prod.snd
      rw [List.map_flatMap] at hmapped
      exact hmapped.symm
    have hstep4 := map_raw_perm_split ds honly
    exact (hstep2.trans (List.Perm.append_left _ hstep3)).trans hstep4.symm
  · rw [writtenBufs_wf ds hwf, string_join_flatMap]
    congr 1
    apply List.map_congr_left
    intro g hg
    rw [blockOf, string_join_cons]

theorem C8_witness :
    ∃ ls', ls'.Perm (exRecsSingle.map Rec.raw) ∧
      String.join (writtenBufs (exRecsSingle.map Rec.raw)) = String.join ls' :=
  C8_roundtrip_single_isoform exRecsSingle
    ⟨by decide, by decide, by decide⟩
    (by
      intro r hr
      fin_cases hr
      · exact Or.inl ⟨exM1, "T1", "G1", rfl⟩
      · exact Or.inr ⟨exC1, "T1", "1", "10", 1, 10, rfl⟩
      · exact Or.inl ⟨exM3, "T3", "G2", rfl⟩
      · exact Or.inr ⟨exC3, "T3", "4", "9", 4, 9, rfl⟩)
    (by decide)

/-- C2: for a gene whose maximal summed CDS length is attained by several
transcripts, the selected transcript is the first entry of the gene's
transcript mapping (insertion order) attaining the maximum.  The selection
is a pure function of the mapping, hence identical across repeated runs. -/
theorem C2_tie_breaks_to_first_registered
    (genelen : List (String × List (String × Int))) (ids : List String)
    (k : Nat) (g : String) (ts : List (String × Int))
    (hk : k < genelen.length)
    (hgl : genelen[k] = (g, ts))
    (hids : getmax genelen = some ids)
    (i j : Nat) (hi : i < ts.length) (hj : j < ts.length) (hij : i ≠ j)
    (hmaxi : ∀ q ∈ ts, q.2 ≤ (ts[i]).2)
    (hmaxj : ∀ q ∈ ts, q.2 ≤ (ts[j]).2) :
    ids[k]? = (ts.find? fun p => ts.all fun q => decide (q.2 ≤ p.2)).map Prod.fst := by
  rw [getmax_getElem? hids k, List.getElem?_eq_getElem hk, hgl]
  show getmax1 ts = _
  rw [getmax1_eq_firstMax, firstMax_eq_find?]

theorem C2_witness :
    (["T1"] : List String)[0]? =
      (([("T1", (5 : Int)), ("T2", 5)].find? fun p =>
          [("T1", (5 : Int)), ("T2", 5)].all fun q => decide (q.2 ≤ p.2)).map
        Prod.fst) :=
  C2_tie_breaks_to_first_registered
    [("G1", [("T1", 5), ("T2", 5)])] ["T1"] 0 "G1" [("T1", 5), ("T2", 5)]
    (by decide) (by decide) (by decide) 0 1 (by decide) (by decide) (by decide)
    (by decide) (by decide)

/-! ## Claim C3 (corrected) -/

/-- C3 counterexample: an `mRNA` line whose start column is `X` (not an
integer) does not terminate the run — the script never parses the
coordinate columns of `mRNA` lines, so the claim as stated is false. -/
theorem C3_counterexample :
    (splitTab (pyStrip exBadMrna.data)).getD 2 [] = "mRNA".data ∧
    pyInt ⟨(splitTab (pyStrip exBadMrna.data)).getD 3 []⟩ = none ∧
    readGff [exBadMrna] ≠ none ∧
    Ev.crash ∉ runTrace [exBadMrna] := by
  refine ⟨by decide, by decide, by decide, by decide⟩

/-- C3 amended: a non-integer start or end column is fatal exactly on a
`CDS` line whose `Parent` names a registered transcript: the scan raises,
the trace records a crash and nothing is written.  (`mRNA` coordinates and
the coordinates of unregistered `CDS` lines are never parsed.) -/
theorem C3_registered_cds_bad_int_fatal (ls1 ls2 : List String) (l : String)
    (st : GffState) (pid a b : String)
    (hpre : readGff ls1 = some st)
    (hl : parseLine l = .cds pid a b)
    (hreg : (alookup st.mrna_info pid).isSome)
    (hbad : pyInt b = none ∨ pyInt a = none) :
    readGff (ls1 ++ l :: ls2) = none ∧
    Ev.crash ∈ runTrace (ls1 ++ l :: ls2) ∧
    writtenBufs (ls1 ++ l :: ls2) = [] := by
  have hstep : stepLine st l = none := by
    obtain ⟨buf, hbuf⟩ := Option.isSome_iff_exists.1 hreg
    simp only [stepLine, hl, hbuf]
    cases hg : alookup st.mrna_gene pid with
    | none => simp [hg]
    | some g =>
      rcases hbad with hb | ha
      · simp [hg, hb]
      · cases he : pyInt b with
        | none => simp [hg, he]
        | some e => simp [hg, he, ha]
  have hnone : readGff (ls1 ++ l :: ls2) = none := by
    rw [readGff, readGffFrom_append]
    rw [show readGffFrom initState ls1 = some st from hpre]
    simp only [readGffFrom]
    rw [show readStep st l = none by rw [readStep, hstep]; rfl]
  have hcrash : Ev.crash ∈ runTrace (ls1 ++ l :: ls2) := by
    rw [runTrace]
    exact List.mem_cons_of_mem _ (crash_mem_of_readGff_none _ _ hnone)
  refine ⟨hnone, hcrash, ?_⟩
  rw [writtenBufs, runTrace, List.filterMap_cons,
    show evWrite? Ev.openOut = none from rfl]
  exact goTrace_crash_writes _ _ (crash_mem_of_readGff_none _ _ hnone)

theorem C3_witness :
    readGff ([exM1] ++ exBadCds :: []) = none ∧
    Ev.crash ∈ runTrace ([exM1] ++ exBadCds :: []) ∧
    writtenBufs ([exM1] ++ exBadCds :: []) = [] :=
  C3_registered_cds_bad_int_fatal [exM1] [] exBadCds exStateM1 "T1" "1" "X"
    (by decide) (by decide) (by decide) (Or.inl (by decide))

/-! ## Claim C4 -/

/-- C4: a `CDS` line whose `Parent` names no registered mRNA produces
exactly one warning on the diagnostic stream; the state records no buffer
append and no length update (only `rna_proid` changes), and the scan
continues with the remaining lines. -/
theorem C4_dangling_cds_warns_and_continues (st : GffState) (line pid a b : String)
    (hp : parseLine line = .cds pid a b)
    (hreg : alookup st.mrna_info pid = none) :
    stepLine st line =
      some ({ st with rna_proid := aset st.rna_proid pid pid },
            [Ev.warn (warnNoInfo pid)]) ∧
    ∀ ls, goTrace st (line :: ls) =
      Ev.readLine line :: Ev.warn (warnNoInfo pid) ::
        goTrace { st with rna_proid := aset st.rna_proid pid pid } ls := by
  have hstep : stepLine st line =
      some ({ st with rna_proid := aset st.rna_proid pid pid },
            [Ev.warn (warnNoInfo pid)]) := by
    simp only [stepLine, hp, hreg]
  exact ⟨hstep, fun ls => by simp [goTrace, hstep]⟩

theorem C4_witness :
    stepLine initState exDanglingCds =
      some ({ initState with rna_proid := aset initState.rna_proid "TX" "TX" },
            [Ev.warn (warnNoInfo "TX")]) :=
  (C4_dangling_cds_warns_and_continues initState exDanglingCds "TX" "1" "10"
    (by decide) (by decide)).1

/-! ## Claim C5 (corrected) -/

/-- C5 counterexample: on an input whose first line registers gene `G1` and
whose second line is a registered `CDS` with a non-integer coordinate, the
run dies and writes zero blocks, while one gene id was registered — so the
equality fails for this input file, and the claim as universally stated
over all input files is false. -/
theorem C5_counterexample :
    registeredGenes [exM1, exBadCds] = ["G1"] ∧
    writtenBufs [exM1, exBadCds] = [] ∧
    (writtenBufs [exM1, exBadCds]).length ≠ (registeredGenes [exM1, exBadCds]).length := by
  refine ⟨by decide, by decide, by decide⟩

/-- C5 amended: for every input file on which the run completes without a
fatal error, the number of buffers written to the output equals the number
of distinct gene ids registered from well-formed mRNA records. -/
theorem C5_one_block_per_gene (ls : List String) (st : GffState)
    (h : readGff ls = some st) :
    (writtenBufs ls).length = (registeredGenes ls).length := by
  have hinv := readGff_inv h
  obtain ⟨ids, hids, hlen⟩ := getmax_some_of_nonempty hinv.nonempty
  have hbuf : ∀ i ∈ ids, (alookup st.mrna_info i).isSome := by
    intro i hi
    obtain ⟨p, hp, len, hmem⟩ := getmax_mem_source hids i hi
    exact hinv.in_info p hp (i, len) hmem
  rw [writtenBufs_eq h, finalWrites]
  simp only [hids]
  rw [filterMap_alookup_length st.mrna_info ids hbuf, hlen]
  have hkeys := readGffFrom_geneKeys ls initState st h
  calc st.gene_mrna_len.length
      = (st.gene_mrna_len.map Prod.fst).length := (List.length_map _ _).symm
    _ = (registeredGenes ls).length := by
        rw [hkeys]; rfl

theorem C5_witness : (writtenBufs [exM1, exC1]).length = (registeredGenes [exM1, exC1]).length :=
  C5_one_block_per_gene [exM1, exC1] exStateM1C1 (by decide)

/-! ## Claim C6 -/

/-- C6: in every mapping produced by a completed scan, each gene entry has
at least one transcript, so the selector succeeds (no empty-list
indexing). -/
theorem C6_gene_entries_nonempty (ls : List String) (st : GffState)
    (h : readGff ls = some st) :
    (∀ p ∈ st.gene_mrna_len, p.2 ≠ []) ∧ (getmax st.gene_mrna_len).isSome := by
  have hinv := readGff_inv h
  obtain ⟨ids, hids, _⟩ := getmax_some_of_nonempty hinv.nonempty
  exact ⟨hinv.nonempty, by rw [hids]; rfl⟩

theorem C6_witness :
    (∀ p ∈ exStateM1C1.gene_mrna_len, p.2 ≠ []) ∧
      (getmax exStateM1C1.gene_mrna_len).isSome :=
  C6_gene_entries_nonempty [exM1, exC1] exStateM1C1 (by decide)

/-! ## Claim C7 -/

/-- C7: every transcript id selected from a completed scan has a stored
buffer, so the writer's missing-buffer warning branch never fires on a
scanner-produced state. -/
theorem C7_selected_ids_have_buffers (ls : List String) (st : GffState)
    (ids : List String) (h : readGff ls = some st)
    (hids : getmax st.gene_mrna_len = some ids) :
    (∀ i ∈ ids, (alookup st.mrna_info i).isSome) ∧
      ∀ e ∈ writeEvents st.mrna_info ids, ∀ m, e ≠ Ev.warn m := by
  have hinv := readGff_inv h
  have hbuf : ∀ i ∈ ids, (alookup st.mrna_info i).isSome := by
    intro i hi
    obtain ⟨p, hp, len, hmem⟩ := getmax_mem_source hids i hi
    exact hinv.in_info p hp (i, len) hmem
  exact ⟨hbuf, writeEvents_no_warn st.mrna_info ids hbuf⟩

theorem C7_witness :
    (∀ i ∈ ["T1"], (alookup exStateM1C1.mrna_info i).isSome) ∧
      ∀ e ∈ writeEvents exStateM1C1.mrna_info ["T1"], ∀ m, e ≠ Ev.warn m :=
  C7_selected_ids_have_buffers [exM1, exC1] exStateM1C1 ["T1"] (by decide) (by decide)

/-! ## Claim C9 -/

/-- C9: the trace of every run opens (creates and truncates) the output
file before reading any input line, and a run that crashes writes no
buffer — so a fatal parse error leaves behind a created, empty output
file. -/
theorem C9_output_created_before_reading (ls : List String) :
    (runTrace ls).head? = some Ev.openOut ∧
      (Ev.crash ∈ runTrace ls → writtenBufs ls = []) := by
  refine ⟨rfl, fun hc => ?_⟩
  rw [writtenBufs, runTrace, List.filterMap_cons,
    show evWrite? Ev.openOut = none from rfl]
  apply goTrace_crash_writes
  rcases List.mem_cons.1 hc with h | h
  · exact absurd h (by simp)
  · exact h

theorem C9_witness :
    (runTrace [exM1, exBadCds]).head? = some Ev.openOut ∧
      writtenBufs [exM1, exBadCds] = [] := by
  refine ⟨(C9_output_created_before_reading [exM1, exBadCds]).1, ?_⟩
  exact (C9_output_created_before_reading [exM1, exBadCds]).2 (by decide)

/-! ## Claim C10 -/

/-- C10: a second `mRNA` record with an already-registered `ID` overwrites
the registration: the buffer is reset to the new line alone (earlier CDS
text discarded), the length entry under the new `Parent` gene is reset to
0, and a subsequent `CDS` naming that id is accumulated under the new gene
while the old gene's entry is untouched. -/
theorem C10_duplicate_mrna_overwrites (st : GffState) (m g2 raw2 g1 oldbuf : String)
    (hparse : parseLine raw2 = .mrna m g2)
    (holdbuf : alookup st.mrna_info m = some oldbuf)
    (holdgene : alookup st.mrna_gene m = some g1) :
    ∃ st', stepLine st raw2 = some (st', []) ∧
      alookup st'.mrna_info m = some raw2 ∧
      alookup st'.mrna_gene m = some g2 ∧
      (alookup st'.gene_mrna_len g2).bind (fun inner => alookup inner m) = some 0 ∧
      (∀ rawc a b s e, parseLine rawc = Parsed.cds m a b →
        pyInt b = some e → pyInt a = some s →
        ∃ st'', stepLine st' rawc = some (st'', []) ∧
          (alookup st''.gene_mrna_len g2).bind (fun inner => alookup inner m)
            = some (e - s + 1) ∧
          (g1 ≠ g2 → alookup st''.gene_mrna_len g1 = alookup st.gene_mrna_len g1)) := by
  refine ⟨{ st with
      mrna_gene := aset st.mrna_gene m g2,
      gene_mrna_len := aset st.gene_mrna_len g2
        (aset ((alookup st.gene_mrna_len g2).getD []) m 0),
      mrna_info := aset st.mrna_info m raw2 }, ?_, ?_, ?_, ?_, ?_⟩
  · simp only [stepLine, hparse]
  · exact alookup_aset_self _ _ _
  · exact alookup_aset_self _ _ _
  · show (alookup (aset st.gene_mrna_len g2
        (aset ((alookup st.gene_mrna_len g2).getD []) m 0)) g2).bind
        (fun inner => alookup inner m) = some 0
    rw [alookup_aset_self]
    show alookup (aset ((alookup st.gene_mrna_len g2).getD []) m 0) m = some 0
    exact alookup_aset_self _ _ _
  · intro rawc a b s e hc hce hcs
    have hinfo : alookup (aset st.mrna_info m raw2) m = some raw2 :=
      alookup_aset_self _ _ _
    have hgen : alookup (aset st.mrna_gene m g2) m = some g2 :=
      alookup_aset_self _ _ _
    have hgl2 : alookup (aset st.gene_mrna_len g2
        (aset ((alookup st.gene_mrna_len g2).getD []) m 0)) g2
        = some (aset ((alookup st.gene_mrna_len g2).getD []) m 0) :=
      alookup_aset_self _ _ _
    have hin0 : alookup (aset ((alookup st.gene_mrna_len g2).getD []) m 0) m
        = some 0 := alookup_aset_self _ _ _
    refine ⟨⟨aset (aset st.gene_mrna_len g2
          (aset ((alookup st.gene_mrna_len g2).getD []) m 0)) g2
          (aset (aset ((alookup st.gene_mrna_len g2).getD []) m 0) m
            (0 + (e - s + 1))),
        aset (aset st.mrna_info m raw2) m (raw2 ++ rawc),
        aset st.rna_proid m m,
        aset st.mrna_gene m g2⟩, ?_, ?_, ?_⟩
    · simp only [stepLine, hc, hinfo, hgen, hce, hcs, hgl2, hin0]
    · show (alookup (aset (aset st.gene_mrna_len g2
          (aset ((alookup st.gene_mrna_len g2).getD []) m 0)) g2
          (aset (aset ((alookup st.gene_mrna_len g2).getD []) m 0) m
            (0 + (e - s + 1)))) g2).bind (fun inner => alookup inner m)
        = some (e - s + 1)
      rw [alookup_aset_self]
      show alookup (aset (aset ((alookup st.gene_mrna_len g2).getD []) m 0) m
        (0 + (e - s + 1))) m = some (e - s + 1)
      rw [alookup_aset_self, zero_add]
    · intro hne
      show alookup (aset (aset st.gene_mrna_len g2
          (aset ((alookup st.gene_mrna_len g2).getD []) m 0)) g2
          (aset (aset ((alookup st.gene_mrna_len g2).getD []) m 0) m
            (0 + (e - s + 1)))) g1 = alookup st.gene_mrna_len g1
      rw [alookup_aset_ne _ _ hne, alookup_aset_ne _ _ hne]

theorem C10_witness :
    ∃ st', stepLine exStateM1C1 exM1G2 = some (st', []) ∧
      alookup st'.mrna_info "T1" = some exM1G2 ∧
      alookup st'.mrna_gene "T1" = some "G2" ∧
      (alookup st'.gene_mrna_len "G2").bind (fun inner => alookup inner "T1") = some 0 ∧
      (∀ rawc a b s e, parseLine rawc = Parsed.cds "T1" a b →
        pyInt b = some e → pyInt a = some s →
        ∃ st'', stepLine st' rawc = some (st'', []) ∧
          (alookup st''.gene_mrna_len "G2").bind (fun inner => alookup inner "T1")
            = some (e - s + 1) ∧
          ("G1" ≠ "G2" → alookup st''.gene_mrna_len "G1"
            = alookup exStateM1C1.gene_mrna_len "G1")) :=
  C10_duplicate_mrna_overwrites exStateM1C1 "T1" "G2" exM1G2 "G1" (exM1 ++ exC1)
    (by decide) (by decide) (by decide)

end XiaoTools
